import Mathlib

/-!
Verification development for the watershed-workflow hydrography core
(src/workflow/hydrography.py and src/workflow/hilev.py).

Coordinates are modelled as exact rationals, represented as unnormalized
integer fractions with positive denominators so that every pipeline
computation reduces in the kernel; every comparison the Python code makes
between a Euclidean distance and a tolerance is modelled as the equivalent
comparison of squared quantities, which keeps the whole snapping pipeline
computable.  Segment length (a sum of square roots) is modelled in ℝ.
Python exceptions (failed assertions, attribute errors, out-of-range
indexing) are modelled by Option/Except results.

The modules workflow.tree, workflow.hucs / workflow.split_hucs and
workflow.utils are not part of the source tree; the definitions drawn from
them are modelled from the specification and are marked as such.
-/

namespace Hydro

/-- An exact rational scalar: an integer numerator over a positive natural
denominator, left unnormalized so that all arithmetic is plain integer
arithmetic. -/
structure Q : Type where
  n : ℤ
  d : ℕ+
deriving DecidableEq

instance : Repr Q :=
  ⟨fun x _ => .text (toString x.n ++ " /. " ++ toString (x.d : ℕ))⟩

instance (k : ℕ) : OfNat Q k := ⟨⟨k, 1⟩⟩

/-- Embed an integer. -/
def Q.ofInt (k : ℤ) : Q := ⟨k, 1⟩

instance : NatCast Q := ⟨fun k => ⟨k, 1⟩⟩

instance : Add Q :=
  ⟨fun x y => ⟨x.n * ((y.d : ℕ) : ℤ) + y.n * ((x.d : ℕ) : ℤ), x.d * y.d⟩⟩

instance : Sub Q :=
  ⟨fun x y => ⟨x.n * ((y.d : ℕ) : ℤ) - y.n * ((x.d : ℕ) : ℤ), x.d * y.d⟩⟩

instance : Neg Q := ⟨fun x => ⟨-x.n, x.d⟩⟩

instance : Mul Q := ⟨fun x y => ⟨x.n * y.n, x.d * y.d⟩⟩

/-- Multiplicative inverse; division by a zero value yields the junk value 0
(the sources guard every division). -/
def Q.inv (x : Q) : Q :=
  if h : x.n = 0 then ⟨0, 1⟩
  else if 0 < x.n then ⟨((x.d : ℕ) : ℤ), ⟨x.n.natAbs, Int.natAbs_pos.mpr h⟩⟩
  else ⟨-((x.d : ℕ) : ℤ), ⟨x.n.natAbs, Int.natAbs_pos.mpr h⟩⟩

instance : Div Q := ⟨fun x y => x * y.inv⟩

/-- Boolean `≤` by cross multiplication (denominators are positive). -/
def Q.ble (x y : Q) : Bool := decide (x.n * ((y.d : ℕ) : ℤ) ≤ y.n * ((x.d : ℕ) : ℤ))

/-- Boolean `<` by cross multiplication. -/
def Q.blt (x y : Q) : Bool := decide (x.n * ((y.d : ℕ) : ℤ) < y.n * ((x.d : ℕ) : ℤ))

/-- Boolean value equality by cross multiplication. -/
def Q.beq (x y : Q) : Bool := decide (x.n * ((y.d : ℕ) : ℤ) = y.n * ((x.d : ℕ) : ℤ))

/-- Minimum by value. -/
def Q.qmin (x y : Q) : Q := if Q.ble x y then x else y

/-- Maximum by value. -/
def Q.qmax (x y : Q) : Q := if Q.ble x y then y else x

/-- Floor to an integer. -/
def Q.floor (x : Q) : ℤ := Int.fdiv x.n ((x.d : ℕ) : ℤ)

/-- Ceiling to an integer. -/
def Q.ceil (x : Q) : ℤ := -Int.fdiv (-x.n) ((x.d : ℕ) : ℤ)

/-- The rational value represented. -/
def Q.val (x : Q) : ℚ := (x.n : ℚ) / ((x.d : ℕ) : ℚ)

/-- The constant 10^(-k), used for the source's absolute tolerances 1e-5,
1e-7, 1e-10 and their squares. -/
def qSmall (k : ℕ) : Q := ⟨1, 10 ^ k⟩

/-- A planar coordinate, exact rational model of the shapely float pair. -/
abbrev Pt : Type := Q × Q

/-- A polyline (shapely LineString) as its coordinate list. -/
abbrev Seg : Type := List Pt

/-- Value equality of coordinates. -/
def beqPt (p q : Pt) : Bool := Q.beq p.1 q.1 && Q.beq p.2 q.2

/-- Squared Euclidean distance between two coordinates.  All of the source's
`distance(p,q) < tol` tests are modelled as `distSq p q < tol*tol`. -/
def distSq (p q : Pt) : Q := (p.1 - q.1) * (p.1 - q.1) + (p.2 - q.2) * (p.2 - q.2)

/-- First coordinate of a segment (`seg.coords[0]`). -/
def segFirst (s : Seg) : Pt := s.headD (0, 0)

/-- Last coordinate of a segment (`seg.coords[-1]`). -/
def segLast (s : Seg) : Pt := s.getLastD (0, 0)

/-- The edges of a polyline: consecutive coordinate pairs. -/
def edges (s : Seg) : List (Pt × Pt) := s.zip s.tail

/-- Modelled from the spec: `workflow.utils.close` (workflow.utils is not under
src/) tests whether two coordinates coincide within an absolute tolerance;
modelled as the squared-Euclidean comparison `distSq p q < tol²`. -/
def closePt (p q : Pt) (tol : Q) : Bool := Q.blt (distSq p q) (tol * tol)

/-- Replace the first coordinate of a segment (`coords[0] = p`). -/
def setFirst (s : Seg) (p : Pt) : Seg :=
  match s with
  | [] => []
  | _ :: rest => p :: rest

/-- Replace the last coordinate of a segment (`coords[-1] = p`). -/
def setLast (s : Seg) (p : Pt) : Seg :=
  match s with
  | [] => []
  | _ => s.dropLast ++ [p]

/-- Nearest point to `p` on the closed edge from `a` to `b`, together with the
clamped projection parameter `t ∈ [0,1]`.  Exact rational arithmetic. -/
def nearestOnEdge (a b p : Pt) : Q × Pt :=
  let dx := b.1 - a.1
  let dy := b.2 - a.2
  let len2 := dx * dx + dy * dy
  if Q.beq len2 0 then (0, a)
  else
    let t0 := ((p.1 - a.1) * dx + (p.2 - a.2) * dy) / len2
    let t := Q.qmax 0 (Q.qmin 1 t0)
    (t, (a.1 + t * dx, a.2 + t * dy))

/-- Result of a nearest-point query on a polyline: the edge index, the clamped
parameter on that edge, the nearest coordinate and its squared distance. -/
structure NearRes where
  idx : ℕ
  t : Q
  pt : Pt
  d2 : Q
deriving DecidableEq, Repr

/-- Walk the edges of a polyline keeping the first edge realizing the minimal
squared distance (shapely reports the first nearest location). -/
def nearestAux (p : Pt) : List (Pt × Pt) → ℕ → Option NearRes
  | [], _ => none
  | e :: es, i =>
    let tq := nearestOnEdge e.1 e.2 p
    let cur : NearRes := ⟨i, tq.1, tq.2, distSq tq.2 p⟩
    match nearestAux p es (i + 1) with
    | none => some cur
    | some best => if Q.blt best.d2 cur.d2 then some best else some cur

/-- Modelled from the spec (§6 geometry capability `nearest_point(line, point)`;
workflow.utils is not under src/): the nearest point on the polyline. -/
def nearest_point (line : Seg) (p : Pt) : Pt :=
  match nearestAux p (edges line) 0 with
  | some r => r.pt
  | none => p

/-- Modelled from the spec (§6 `project(line, point) → arclength`): sort key of
the projection of `p` onto `line`.  Points are ordered by (edge index, clamped
parameter), which orders points on the line by ascending arclength. -/
def projKey (line : Seg) (p : Pt) : ℕ × Q :=
  match nearestAux p (edges line) 0 with
  | some r => (r.idx, r.t)
  | none => (0, 0)

/-- Modelled from the spec (§4.4 broad-phase bounding check;
`workflow.utils.in_neighborhood` is not under src/): the point lies inside the
bounding box of the polyline expanded by `tol`. -/
def in_neighborhood (p : Pt) (s : Seg) (tol : Q) : Bool :=
  match s with
  | [] => false
  | q :: qs =>
    let xlo := qs.foldl (fun m r => Q.qmin m r.1) q.1
    let xhi := qs.foldl (fun m r => Q.qmax m r.1) q.1
    let ylo := qs.foldl (fun m r => Q.qmin m r.2) q.2
    let yhi := qs.foldl (fun m r => Q.qmax m r.2) q.2
    Q.ble (xlo - tol) p.1 && Q.ble p.1 (xhi + tol) &&
      Q.ble (ylo - tol) p.2 && Q.ble p.2 (yhi + tol)

/-! ## The river tree

Modelled from the spec (§3 River Tree Node, §9; workflow.tree is not under
src/): a node owns one segment and an ordered list of children; the root has
no parent; consistency demands each child's last coordinate equal its
parent's first coordinate. -/

/-- Modelled from the spec: a river tree node (workflow.tree.Tree). -/
inductive Tree : Type where
  | node : Seg → List Tree → Tree
deriving Repr

/-- Decidable (structural) equality for trees. -/
def Tree.beq : Tree → Tree → Bool
  | .node s cs, .node s' cs' => s == s' && beqList cs cs'
where
  beqList : List Tree → List Tree → Bool
    | [], [] => true
    | t :: ts, t' :: ts' => Tree.beq t t' && beqList ts ts'
    | _, _ => false

def Tree.beq_refl : (t : Tree) → Tree.beq t t = true
  | .node s cs => by
    rw [Tree.beq]
    simp only [Bool.and_eq_true, beq_self_eq_true, true_and]
    exact beqList_refl cs
where
  beqList_refl : (ts : List Tree) → Tree.beq.beqList ts ts = true
    | [] => rfl
    | t :: ts => by
      rw [Tree.beq.beqList, Bool.and_eq_true]
      exact ⟨Tree.beq_refl t, beqList_refl ts⟩

def Tree.eq_of_beq : {t u : Tree} → Tree.beq t u = true → t = u
  | .node s cs, .node s' cs', h => by
    rw [Tree.beq, Bool.and_eq_true] at h
    obtain ⟨h1, h2⟩ := h
    cases beq_iff_eq.mp h1
    cases eqList_of_beqList h2
    rfl
where
  eqList_of_beqList : {ts us : List Tree} → Tree.beq.beqList ts us = true → ts = us
    | [], [], _ => rfl
    | [], _ :: _, h => by simp only [Tree.beq.beqList] at h; exact absurd h (by decide)
    | _ :: _, [], h => by simp only [Tree.beq.beqList] at h; exact absurd h (by decide)
    | t :: ts, u :: us, h => by
      rw [Tree.beq.beqList, Bool.and_eq_true] at h
      obtain ⟨h1, h2⟩ := h
      cases Tree.eq_of_beq h1
      cases eqList_of_beqList h2
      rfl

instance : DecidableEq Tree := fun t u =>
  if h : Tree.beq t u = true then .isTrue (Tree.eq_of_beq h)
  else .isFalse (fun he => h (he ▸ Tree.beq_refl t))

/-- The segment stored at the root node. -/
def Tree.seg : Tree → Seg
  | .node s _ => s

/-- The children of the root node. -/
def Tree.children : Tree → List Tree
  | .node _ cs => cs

/-- Modelled from the spec: `tree.dfs()` — the segments of every node of the
tree, the node before its children (the traversal used both to build the
Phase-1 endpoint index and to enumerate all reaches). -/
def Tree.dfs : Tree → List Seg
  | .node s cs => s :: go cs
where
  go : List Tree → List Seg
    | [] => []
    | t :: ts => t.dfs ++ go ts

/-- `dfs` over a list of sibling subtrees, in order. -/
def dfsForest : List Tree → List Seg := Tree.dfs.go

/-- Modelled from the spec: `tree.leaves()` — the segments of the leaf nodes
(nodes with no children), in traversal order. -/
def Tree.leaves : Tree → List Seg
  | .node s [] => [s]
  | .node _ (c :: cs) => go (c :: cs)
where
  go : List Tree → List Seg
    | [] => []
    | t :: ts => t.leaves ++ go ts

/-- `leaves` over a list of sibling subtrees. -/
def leavesForest : List Tree → List Seg := Tree.leaves.go

/-- One node of the consistency check: the node's last coordinate must match
its parent's first coordinate `pf`, and its children must match it. -/
def Tree.consAux : Tree → Pt → Bool
  | .node s cs, pf => beqPt (segLast s) pf && go cs (segFirst s)
where
  go : List Tree → Pt → Bool
    | [], _ => true
    | t :: ts, pf => Tree.consAux t pf && go ts pf

/-- Helper for `is_consistent`: checks a list of siblings whose parent's first
coordinate is `pf`. -/
def consForest (pf : Pt) (ts : List Tree) : Bool := Tree.consAux.go ts pf

/-- Modelled from the spec (§3 invariant; workflow.tree.is_consistent is not
under src/): every node's segment's last coordinate equals its parent's
segment's first coordinate. -/
def is_consistent : Tree → Bool
  | .node s cs => consForest (segFirst s) cs

/-! ## The split-form boundary (HUCs)

Modelled from the spec (§3 Split-Form Boundary; workflow.hucs /
workflow.split_hucs is not under src/): a pool of segments addressed by
stable handles (list indices; mutation only replaces in place or appends),
components (`boundaries` and `intersections`) as ordered handle lists, and
polygons referencing components.  `polygons()` must raise unless every
polygon's ring closes; ring closure is modelled as the multiset of ring-
segment start coordinates matching the multiset of end coordinates (splits
and consistent corner moves preserve it, a torn ring breaks it). -/

/-- Modelled from the spec: the split-form HUC collection. -/
structure HUCs where
  segments : List Seg
  boundaries : List (List ℕ)
  intersections : List (List ℕ)
  gons : List (List (Bool × ℕ))
deriving DecidableEq, Repr

/-- Whether one list of coordinates is a value-permutation of another
(counting multiplicity), as a boolean check. -/
def permEqCheck (l1 l2 : List Pt) : Bool :=
  (l1.length == l2.length) &&
    l1.all (fun x => l1.countP (fun z => beqPt x z) == l2.countP (fun z => beqPt x z))

/-- The segments of one polygon's ring, gathered from its components. -/
def ringSegs (h : HUCs) (comps : List (Bool × ℕ)) : List Seg :=
  (comps.flatMap fun bi =>
    if bi.1 then h.boundaries.getD bi.2 [] else h.intersections.getD bi.2 []).map
    (fun k => h.segments.getD k [])

/-- Modelled from the spec: the self-consistency check performed by
`list(hucs.polygons())` — true iff every polygon's ring reconstructs and
closes. -/
def polygonsOk (h : HUCs) : Bool :=
  h.gons.all fun comps =>
    let ss := ringSegs h comps
    permEqCheck (ss.map segFirst) (ss.map segLast)

/-! ## Forest construction (make_global_tree, hydrography.py lines 270-312) -/

/-- `kdtree.query_ball_point(n.segment.coords[-1], tol)`: the indices of the
segments whose begin point lies within `tol` of segment `j`'s end point, in
ascending index order. -/
def ballCandidates (rivers : List Seg) (tol : Q) (j : ℕ) : List ℕ :=
  ((List.range rivers.length).filter fun i =>
    Q.ble (distSq (segFirst (rivers.getD i [])) (segLast (rivers.getD j []))) (tol * tol))

/-- The tangent of a segment's final edge, `coords[-1] - coords[-2]`. -/
def finalTan (s : Seg) : Pt :=
  let b := segLast s
  let a := s.getD (s.length - 2) (0, 0)
  (b.1 - a.1, b.2 - a.2)

/-- The tangent of a segment's initial edge, `coords[1] - coords[0]`. -/
def initTan (s : Seg) : Pt :=
  let a := segFirst s
  let b := s.getD 1 (0, 0)
  (b.1 - a.1, b.2 - a.2)

/-- Exact comparison of normalized dot products: decides
`⟨u,m⟩/‖u‖ < ⟨v,m⟩/‖v‖` by sign analysis and cross-multiplied squares, which
keeps the comparison rational (the source normalizes in floating point). -/
def ndotLt (u v m : Pt) : Bool :=
  let a := u.1 * m.1 + u.2 * m.2
  let b := v.1 * m.1 + v.2 * m.2
  let p := u.1 * u.1 + u.2 * u.2
  let q := v.1 * v.1 + v.2 * v.2
  if Q.blt a 0 then Q.ble 0 b || Q.blt (b * b * p) (a * a * q)
  else Q.ble 0 b && Q.blt (a * a * q) (b * b * p)

/-- `np.argmax` over the candidates' normalized-tangent dot products with the
terminating segment's final tangent: first index achieving the maximum. -/
def argmaxDot (m : Pt) : List (ℕ × Pt) → ℕ
  | [] => 0
  | c :: cs => (cs.foldl (fun best x => if ndotLt best.2 x.2 m then x else best) c).1

/-- The parent assignment of `make_global_tree`: for segment `j`, `none` means
`j` becomes a forest root; `some c` means node `j` is attached as a child of
node `c` (zero candidates → root; one → that node; several → tangent-dot
argmax). -/
def parentIdx (rivers : List Seg) (tol : Q) (j : ℕ) : Option ℕ :=
  match ballCandidates rivers tol j with
  | [] => none
  | [c] => some c
  | c :: c' :: cs =>
    some (argmaxDot (finalTan (rivers.getD j []))
      ((c :: c' :: cs).map fun i => (i, initTan (rivers.getD i []))))

/-- Indices of the forest roots, in insertion order. -/
def rootIdxs (rivers : List Seg) (tol : Q) : List ℕ :=
  (List.range rivers.length).filter fun j => (parentIdx rivers tol j).isNone

/-- Indices of the children attached to node `c`, in attachment order. -/
def childIdxs (rivers : List Seg) (tol : Q) (c : ℕ) : List ℕ :=
  (List.range rivers.length).filter fun j => parentIdx rivers tol j == some c

/-- Materialize the tree rooted at index `j` from the parent assignment; the
fuel bounds the depth (at most `rivers.length` for any node reachable from a
root, since parent chains from reachable nodes are acyclic). -/
def buildTree (rivers : List Seg) (tol : Q) : ℕ → ℕ → Tree
  | 0, j => .node (rivers.getD j []) []
  | fuel + 1, j =>
    .node (rivers.getD j []) ((childIdxs rivers tol j).map (buildTree rivers tol fuel))

/-- `make_global_tree` (hydrography.py lines 270-312): build the forest by
matching each segment's end point against all begin points within `tol`. -/
def make_global_tree (rivers : List Seg) (tol : Q) : List Tree :=
  if rivers.length = 0 then []
  else (rootIdxs rivers tol).map (buildTree rivers tol rivers.length)

/-! ## Phase 1: snapping HUC segment endpoints to river endpoints
(snap_polygon_endpoints, hydrography.py lines 124-145) -/

/-- The endpoint pool indexed by the Phase-1 KD-tree: the last coordinate of
every reach of every tree (`r.coords[-1] for tree in rivers for r in
tree.dfs()`) followed by the first coordinate of every leaf reach
(`r.coords[0] ... tree.leaves()`). -/
def riverEndCoords (rivers : List Tree) : List Pt :=
  (rivers.flatMap fun t => t.dfs.map segLast) ++
    (rivers.flatMap fun t => t.leaves.map segFirst)

/-- `kdtree.query(p)`: index of the nearest coordinate (first index on ties)
with its squared distance; `none` on an empty pool. -/
def nearestIdx (coords : List Pt) (p : Pt) : Option (ℕ × Q) :=
  go coords 0
where
  go : List Pt → ℕ → Option (ℕ × Q)
    | [], _ => none
    | c :: cs, i =>
      let cur := (i, distSq c p)
      match go cs (i + 1) with
      | none => some cur
      | some best => if Q.blt best.2 cur.2 then some best else some cur

/-- `snap_polygon_endpoints(hucs, rivers, tol)` (hydrography.py lines
124-145): for every pooled segment, query both endpoints against the river
endpoint pool and replace each endpoint whose nearest match is within `tol`. -/
def snap_polygon_endpoints (h : HUCs) (rivers : List Tree) (tol : Q) : HUCs :=
  let coords := riverEndCoords rivers
  { h with
    segments := h.segments.map fun seg =>
      match nearestIdx coords (segFirst seg), nearestIdx coords (segLast seg) with
      | some i0, some i1 =>
        if Q.blt i0.2 (tol * tol) || Q.blt i1.2 (tol * tol) then
          let ns := seg
          let ns := if Q.blt i0.2 (tol * tol) then setFirst ns (coords.getD i0.1 (0, 0)) else ns
          let ns := if Q.blt i1.2 (tol * tol) then setLast ns (coords.getD i1.1 (0, 0)) else ns
          ns
        else seg
      | _, _ => seg }

/-! ## Phase 2: snapping river endpoints to the boundary
(_snap_and_cut and snap_endpoints, hydrography.py lines 71-268) -/

/-- `_snap_and_cut(point, line, tol)` (hydrography.py lines 71-85): the
nearest point when it is within `tol` of the line; `None` when the point sits
within 1e-7 of the line and is already (close to) one of its vertices. -/
def snap_and_cut (point : Pt) (line : Seg) (tol : Q) : Option Pt :=
  if in_neighborhood point line tol then
    let np := nearest_point line point
    let d2 := distSq np point
    if Q.blt d2 (tol * tol) then
      if Q.blt d2 (qSmall 14) && line.any (fun c => closePt point c (qSmall 7)) then none
      else some np
    else none
  else none

/-- Drop leading coordinates that are closer to the snapped point than the
current first coordinate is (`while len(coords) > 2 and distance(new_coord,
coords[1]) < distance(new_coord, coords[0]): coords.pop(0)`). -/
def trimFront (q : Pt) : Seg → Seg
  | c0 :: c1 :: c2 :: rest =>
    if Q.blt (distSq q c1) (distSq q c0) then trimFront q (c1 :: c2 :: rest)
    else c0 :: c1 :: c2 :: rest
  | s => s

/-- The mirrored trim for the last endpoint (`... coords.pop(-1)`). -/
def trimBack (q : Pt) (s : Seg) : Seg := (trimFront q s.reverse).reverse

/-- A component reference: `true` with an index into `boundaries`, `false`
with an index into `intersections`. -/
abbrev CompRef : Type := Bool × ℕ

/-- One entry of the `to_add` list: the snapped boundary segment handle, the
component holding it, which river endpoint snapped (`false` = `coords[0]`,
`true` = `coords[-1]`) and that endpoint's final coordinate (the source stores
the node and reads `node.segment.coords[endpoint]` after all snapping of the
node is done). -/
structure AddEntry where
  handle : ℕ
  comp : CompRef
  ep : Bool
  coord : Pt
deriving DecidableEq, Repr

/-- The components in iteration order:
`itertools.chain(hucs.boundaries.items(), hucs.intersections.items())`. -/
def chainComps (h : HUCs) : List (CompRef × List ℕ) :=
  (h.boundaries.enum.map fun bi => ((true, bi.1), bi.2)) ++
    (h.intersections.enum.map fun bi => ((false, bi.1), bi.2))

/-- First handle of a component whose segment the point snaps onto, with the
snapped coordinate (the stage loops `break` after the first hit). -/
def findSnap (h : HUCs) (tol : Q) (p : Pt) : List ℕ → Option (ℕ × Pt)
  | [] => none
  | k :: ks =>
    match snap_and_cut p (h.segments.getD k []) tol with
    | some q => some (k, q)
    | none => findSnap h tol p ks

/-- Process one river node's segment against every component, first its
`coords[0]` then its `coords[-1]` per component, recording raw `to_add`
entries (handle, component, endpoint). -/
def processNode (h : HUCs) (tol : Q) (seg0 : Seg) : Seg × List (ℕ × CompRef × Bool) :=
  (chainComps h).foldl
    (fun st comp =>
      let st1 :=
        match findSnap h tol (segFirst st.1) comp.2 with
        | some kq => (setFirst (trimFront kq.2 st.1) kq.2, st.2 ++ [(kq.1, comp.1, false)])
        | none => st
      match findSnap h tol (segLast st1.1) comp.2 with
      | some kq => (setLast (trimBack kq.2 st1.1) kq.2, st1.2 ++ [(kq.1, comp.1, true)])
      | none => st1)
    (seg0, [])

/-- Resolve a node's raw entries against its final segment. -/
def resolveEntries (seg : Seg) (raw : List (ℕ × CompRef × Bool)) : List AddEntry :=
  raw.map fun r => ⟨r.1, r.2.1, r.2.2, if r.2.2 then segLast seg else segFirst seg⟩

/-- The collection pass of `snap_endpoints`: visit every node pre-order,
snapping its endpoints and accumulating the `to_add` entries. -/
def collectTree (h : HUCs) (tol : Q) : Tree → Tree × List AddEntry
  | .node s cs =>
    let r := processNode h tol s
    let rf := go cs
    (.node r.1 rf.1, resolveEntries r.1 r.2 ++ rf.2)
where
  go : List Tree → List Tree × List AddEntry
    | [] => ([], [])
    | t :: ts =>
      let r := collectTree h tol t
      let rf := go ts
      (r.1 :: rf.1, r.2 ++ rf.2)

/-- `collectTree` over sibling subtrees, in order. -/
def collectForest (h : HUCs) (tol : Q) : List Tree → List Tree × List AddEntry :=
  (collectTree.go h tol)

/-- Group the `to_add` entries by segment handle, handles in first-occurrence
order and entries in list order (a Python dict of lists). -/
def groupByHandle (es : List AddEntry) : List (ℕ × List AddEntry) :=
  es.foldl
    (fun gs e =>
      if gs.any (fun g => g.1 == e.handle) then
        gs.map fun g => if g.1 == e.handle then (g.1, g.2 ++ [e]) else g
      else gs ++ [(e.handle, [e])])
    []

/-- One step of the deduplication scan: `p1` is kept unless some already-kept
entry's coordinate is within 1e-5 of it; the source then asserts that the two
entries name the same component (`assert(p1[0] == p2[0])`), modelled as a
failure when they do not. -/
def dedupStep (kept : List AddEntry) (p1 : AddEntry) : Option (List AddEntry) :=
  match kept.find? (fun p2 => closePt p1.coord p2.coord (qSmall 5)) with
  | none => some (kept ++ [p1])
  | some p2 => if p2.comp = p1.comp then some kept else none

/-- A coordinate flagged as an original vertex (`false`) or a new breakpoint
(`true`). -/
abbrev Flagged : Type := Pt × Bool

/-- The sort key order used by `sorted(..., key=seg.project)`: ascending
arclength of the projection onto `seg`, refined to the (edge index, parameter)
lexicographic order. -/
def keyLe (seg : Seg) (a b : Flagged) : Prop :=
  (projKey seg a.1).1 < (projKey seg b.1).1 ∨
    ((projKey seg a.1).1 = (projKey seg b.1).1 ∧
      Q.ble (projKey seg a.1).2 (projKey seg b.1).2 = true)

instance (seg : Seg) : DecidableRel (keyLe seg) := fun a b => by
  unfold keyLe
  infer_instance

/-- Stable sort of the flagged coordinates by projection arclength (Python's
`sorted` is stable; `List.insertionSort` keeps earlier equal-key elements
first). -/
def sortFlagged (seg : Seg) (l : List Flagged) : List Flagged :=
  List.insertionSort (keyLe seg) l

/-- Positions of the flagged breakpoints in a flagged list. -/
def breakpointInds (l : List Flagged) : List ℕ :=
  (l.enum.filter fun p => p.2.2).map Prod.fst

/-- Cut the flagged list into segments at the breakpoint indices, one slice
per breakpoint plus the final remainder.  `none` models the source's
assertions `ind_end is not 0` and `ind_start < len(new_coords)-1`. -/
def slicesAux (l : List Flagged) : ℕ → List ℕ → Option (List Seg)
  | ind_start, [] =>
    if ind_start < l.length - 1 then some [(l.drop ind_start).map Prod.fst] else none
  | ind_start, ie :: rest =>
    if ie = 0 then none
    else
      (slicesAux l ie rest).map fun segs =>
        ((l.drop ind_start).take (ie - ind_start + 1)).map Prod.fst :: segs

/-- Build the new segments from a sorted flagged list. -/
def buildSegs (l : List Flagged) : Option (List Seg) :=
  slicesAux l 0 (breakpointInds l)

/-- Clear the breakpoint flag on the last element
(`new_coords[-1][1] = 0`). -/
def clearLastFlag : List Flagged → List Flagged
  | [] => []
  | [x] => [(x.1, false)]
  | x :: y :: xs => x :: clearLastFlag (y :: xs)

/-- Clear the breakpoint flags on both ends (`new_coords[0][1] = 0;
new_coords[-1][1] = 0`). -/
def clearEndFlags (l : List Flagged) : List Flagged :=
  match clearLastFlag l with
  | [] => []
  | x :: xs => (x.1, false) :: xs

/-- Whether the segment is a closed loop: `not workflow.utils.close(
seg.coords[0], seg.coords[-1])` with the modelled default tolerance 1e-7. -/
def isLoopSeg (seg : Seg) : Bool := closePt (segFirst seg) (segLast seg) (qSmall 7)

/-- Insert the (already deduplicated) breakpoints into a segment, sorted by
arclength, and cut it there (hydrography.py lines 227-261).  A loop segment
drops its duplicated seam coordinate and is rotated to start at the first
breakpoint so the seam is not treated as two insertion points. -/
def insertPoints (seg : Seg) (pts : List Pt) : Option (List Seg) :=
  if !isLoopSeg seg then
    buildSegs (sortFlagged seg (seg.map (fun c => (c, false)) ++ pts.map fun p => (p, true)))
  else
    let srt := sortFlagged seg
      (seg.dropLast.map (fun c => (c, false)) ++ pts.map fun p => (p, true))
    match breakpointInds srt with
    | [] => none
    | b0 :: _ => buildSegs (clearEndFlags (srt.drop b0 ++ srt.take (b0 + 1)))

/-- Apply one handle's deduplicated insertions to the HUC collection: the
original handle keeps the first new segment, the remaining segments get fresh
handles appended to the pool and registered with the referencing component. -/
def applyGroup (h : HUCs) (g : ℕ × List AddEntry) : Option HUCs := do
  let deduped ← g.2.foldlM dedupStep []
  let segs ← insertPoints (h.segments.getD g.1 []) (deduped.map (fun e => e.coord))
  match segs, deduped with
  | s0 :: rest, e0 :: _ =>
    let h' : HUCs := { h with segments := h.segments.set g.1 s0 ++ rest }
    let newHandles := List.range' h.segments.length rest.length
    if e0.comp.1 then
      pure { h' with boundaries :=
        h'.boundaries.set e0.comp.2 (h'.boundaries.getD e0.comp.2 [] ++ newHandles) }
    else
      pure { h' with intersections :=
        h'.intersections.set e0.comp.2 (h'.intersections.getD e0.comp.2 [] ++ newHandles) }
  | _, _ => none

/-- `snap_endpoints(tree, hucs, tol)` (hydrography.py lines 147-268): snap
every node endpoint onto nearby boundary segments, then split each snapped
boundary segment at the deduplicated, arclength-sorted insertion points.
`none` models an AssertionError escaping the call. -/
def snap_endpoints (t : Tree) (h : HUCs) (tol : Q) : Option (Tree × HUCs) := do
  let c := collectTree h tol t
  let h' ← (groupByHandle c.2).foldlM applyGroup h
  pure (c.1, h')

/-- Phase 2 of `snap`: `for tree in rivers: snap_endpoints(tree, hucs, tol)`,
threading the mutated HUC collection. -/
def snapAllTrees (h : HUCs) (ts : List Tree) (tol : Q) : Option (HUCs × List Tree) :=
  match ts with
  | [] => some (h, [])
  | t :: rest => do
    let r ← snap_endpoints t h tol
    let rr ← snapAllTrees r.2 rest tol
    pure (rr.1, r.1 :: rr.2)

/-- `snap(hucs, rivers, tol, tol_triples)` (hydrography.py lines 18-69): the
two-phase conflation driver.  `none` models an exception escaping the call
(the entry assertions / `list(hucs.polygons())`, or an assertion inside
Phase 2); `some (b, hucs, rivers)` is the returned flag with the final state. -/
def snap (h : HUCs) (rivers : List Tree) (tol : Q) (tol_triples : Option Q) :
    Option (Bool × HUCs × List Tree) :=
  if ¬ rivers.all is_consistent then none
  else if ¬ polygonsOk h then none
  else if rivers.length = 0 then some (true, h, rivers)
  else
    let tt := tol_triples.getD tol
    let h1 := snap_polygon_endpoints h rivers tt
    if ¬ rivers.all is_consistent then some (false, h1, rivers)
    else if ¬ polygonsOk h1 then some (false, h1, rivers)
    else
      match snapAllTrees h1 rivers tol with
      | none => none
      | some (h2, rivers2) =>
        if ¬ rivers2.all is_consistent then some (false, h2, rivers2)
        else if ¬ polygonsOk h2 then some (false, h2, rivers2)
        else some (true, h2, rivers2)

/-! ## Tree cleanup (simplify / merge / prune, hydrography.py lines 337-385) -/

/-- Length of a segment: the sum of the Euclidean lengths of its edges. -/
noncomputable def lengthR (s : Seg) : ℝ :=
  (edges s).foldr (fun e acc => Real.sqrt (((distSq e.1 e.2).val : ℚ) : ℝ) + acc) 0

/-- Final child list of a parent: survivors in place, appended children of
removed nodes at the end (Python's `addChild` appends). -/
def mergePack (p : List Tree × List Tree) : List Tree := p.1 ++ p.2

section
open Classical

/-- `prune` (hydrography.py lines 363-368) restricted to a list of sibling
subtrees: removes every leaf whose segment is shorter than `tol`.  The
traversal is over the leaves present at call time, so a node whose children
are all removed is not itself removed.  Modelled from the spec for the part
workflow.tree leaves to tree internals: the root is never removed (§4.2: no
cleanup operator changes the tree's root set). -/
noncomputable def pruneForest (tol : ℝ) : List Tree → List Tree
  | [] => []
  | .node s cs :: ts =>
    if cs = [] ∧ lengthR s < tol then pruneForest tol ts
    else .node s (pruneForest tol cs) :: pruneForest tol ts

/-- `prune(tree, prune_tol)` (hydrography.py lines 363-368). -/
noncomputable def prune (t : Tree) (tol : ℝ) : Tree :=
  match t with
  | .node s cs => .node s (pruneForest tol cs)

mutual

/-- One node of `merge` (hydrography.py lines 370-378), processed pre-order.
`pf` is the first coordinate of the node's (current) parent; `rehome` records
that the parent was removed, in which case the node's last coordinate is first
replaced by `pf` (`child.segment = child.segment.coords[:-1] + [node.parent.
segment.coords[0]]`).  Returns either the surviving subtree or, when the node
is shorter than `tol` and removed, the list of processed grandchildren to be
appended to the grandparent's child list. -/
noncomputable def mergeNode (tol : ℝ) (pf : Pt) (rehome : Bool) : Tree → Tree ⊕ List Tree
  | .node s cs =>
    let s' := if rehome then s.dropLast ++ [pf] else s
    if lengthR s' < tol then .inr (mergePack (mergeSibs tol pf true cs))
    else .inl (.node s' (mergePack (mergeSibs tol (segFirst s') false cs)))

/-- `merge` over a sibling list: returns (surviving children in order,
children of removed nodes to append at the end, in processing order). -/
noncomputable def mergeSibs (tol : ℝ) (pf : Pt) (rehome : Bool) :
    List Tree → List Tree × List Tree
  | [] => ([], [])
  | t :: ts =>
    let r := mergeNode tol pf rehome t
    let rest := mergeSibs tol pf rehome ts
    match r with
    | .inl t' => (t' :: rest.1, rest.2)
    | .inr gs => (rest.1, gs ++ rest.2)

end

/-- `merge(tree, tol)` (hydrography.py lines 370-378).  When the root itself is
shorter than `tol` the source evaluates `node.parent.segment.coords[0]` with
`node.parent` being `None` (the spec's root has no parent) — for a root with
children this is an unconditional AttributeError, and removing a parentless
node likewise fails (modelled from the spec: removal detaches a node from its
parent); both are modelled as `none`. -/
noncomputable def merge (t : Tree) (tol : ℝ) : Option Tree :=
  match t with
  | .node s cs =>
    if lengthR s < tol then none
    else some (.node s (mergePack (mergeSibs tol (segFirst s) false cs)))

end

/-- Index of the interior point of `s` farthest (in squared perpendicular
distance) from the chord of `s`, with that squared distance. -/
def dpFarthest (s : Seg) : ℕ × Q :=
  match s with
  | [] => (0, 0)
  | a :: rest =>
    let b := segLast s
    let interior := rest.dropLast
    let r := interior.foldl
      (fun (st : ℕ × Q × ℕ) p =>
        let d := distSq (nearestOnEdge a b p).2 p
        if Q.blt st.2.1 d then (st.2.2, d, st.2.2 + 1) else (st.1, st.2.1, st.2.2 + 1))
      (0, 0, 1)
    (r.1, r.2.1)

/-- Modelled from the spec (§4.2: geometry-simplify is a consumed capability,
Douglas-Peucker-style, preserving endpoints): recursive split at the farthest
interior point while it exceeds the tolerance. -/
def dpSimplify (tol : Q) (s : Seg) : Seg :=
  if hlen : s.length ≤ 2 then s
  else
    if hf : Q.ble (dpFarthest s).2 (tol * tol) = true ∨ (dpFarthest s).1 = 0 ∨
        s.length - 1 ≤ (dpFarthest s).1 then
      [segFirst s, segLast s]
    else
      dpSimplify tol (s.take ((dpFarthest s).1 + 1)) ++
        (dpSimplify tol (s.drop ((dpFarthest s).1))).tail
termination_by s.length
decreasing_by
  · push_neg at hf
    simp only [List.length_take]
    omega
  · push_neg at hf
    simp only [List.length_drop]
    omega

mutual

/-- `simplify` (hydrography.py lines 380-385) on a forest: replace every
node's segment with its simplified form, in place. -/
def simplifyForest (tol : Q) : List Tree → List Tree
  | [] => []
  | .node s cs :: ts => .node (dpSimplify tol s) (simplifyForest tol cs) :: simplifyForest tol ts

end

/-- `simplify(tree, tol)` (hydrography.py lines 380-385). -/
def simplify (t : Tree) (tol : Q) : Tree :=
  match t with
  | .node s cs => .node (dpSimplify tol s) (simplifyForest tol cs)

open Classical in
/-- `cleanup` (hydrography.py lines 344-361): simplify, then merge, then
(when the tolerances differ) prune, per tree.  A merge failure propagates. -/
noncomputable def cleanup (rivers : List Tree) (simp_tol : Option Q)
    (prune_tol merge_tol : Option ℝ) : Option (List Tree) :=
  let rivers1 := match simp_tol with
    | some st => rivers.map (fun t => simplify t st)
    | none => rivers
  rivers1.mapM fun t => do
    let t1 ← match merge_tol with
      | some mt => merge t mt
      | none => pure t
    let t2 := match prune_tol with
      | some pt => if merge_tol ≠ prune_tol then prune t1 pt else t1
      | none => t1
    pure t2

/-! ## Raster sampling (values_from_raster, hilev.py lines 748-803) -/

/-- Numpy-style list indexing: non-negative indices must be in range,
negative indices wrap once (`l[-k]` is `l[len-k]`), anything else raises. -/
def npGet {α : Type} (l : List α) (i : ℤ) : Option α :=
  if 0 ≤ i then l.get? i.toNat
  else if (-i).toNat ≤ l.length then l.get? (l.length - (-i).toNat) else none

/-- Two-dimensional numpy indexing `raster[i, j]`. -/
def npGet2 (raster : List (List Q)) (i j : ℤ) : Option Q := do
  let row ← npGet raster i
  npGet row j

/-- The `nearest` branch of `values_from_raster`: map each (already warped)
point through the inverse affine transform, floor to a pixel index
(`rasterio.transform.rowcol`), and read the raster directly — no clamping, so
an out-of-range pixel index raises (modelled as `none`).  The reprojection
and the affine transform are consumed capabilities (spec §6), passed as the
functions `warp` and `inv`; `inv` returns fractional `(j, i)` = (column,
row). -/
def valuesNearest (warp : Pt → Pt) (inv : Pt → Q × Q) (raster : List (List Q))
    (points : List Pt) : Option (List Q) :=
  points.mapM fun p =>
    let ji := inv (warp p)
    npGet2 raster (Q.floor ji.2) (Q.floor ji.1)

/-- The `piecewise bilinear` branch of `values_from_raster` for one point:
center on the pixel (`i -= 0.5; j -= 0.5`), clamp to
`[eps, dimension - 1 - eps]` with `eps = 1e-10`, then bilinearly interpolate
the four surrounding pixel centers. -/
def bilinearOne (inv : Pt → Q × Q) (height width : ℕ) (raster : List (List Q))
    (p : Pt) : Option Q := do
  let eps : Q := qSmall 10
  let ji := inv p
  let i0 := ji.2 - (1 : Q) / 2
  let j0 := ji.1 - (1 : Q) / 2
  let i := Q.qmax eps (Q.qmin ((height : Q) - 1 - eps) i0)
  let j := Q.qmax eps (Q.qmin ((width : Q) - 1 - eps) j0)
  let v00 ← npGet2 raster (Q.floor i) (Q.floor j)
  let v01 ← npGet2 raster (Q.floor i) (Q.ceil j)
  let v10 ← npGet2 raster (Q.ceil i) (Q.floor j)
  let v11 ← npGet2 raster (Q.ceil i) (Q.ceil j)
  let ii := i - Q.ofInt (Q.floor i)
  let jj := j - Q.ofInt (Q.floor j)
  let up := v00 + jj * (v01 - v00)
  let dn := v10 + jj * (v11 - v10)
  pure (up + (dn - up) * ii)

/-- The `piecewise bilinear` branch of `values_from_raster` over all points
(already warped into the raster coordinate system). -/
def valuesBilinear (warp : Pt → Pt) (inv : Pt → Q × Q) (height width : ℕ)
    (raster : List (List Q)) (points : List Pt) : Option (List Q) :=
  points.mapM fun p => bilinearOne inv height width raster (warp p)

/-- The two interpolation algorithms accepted by `values_from_raster`. -/
inductive RasterAlg : Type where
  | nearest
  | bilinear
deriving DecidableEq, Repr

/-- `values_from_raster(points, points_crs, raster, raster_profile, algorithm)`
(hilev.py lines 748-803). -/
def values_from_raster (warp : Pt → Pt) (inv : Pt → Q × Q) (height width : ℕ)
    (raster : List (List Q)) (alg : RasterAlg) (points : List Pt) : Option (List Q) :=
  match alg with
  | .nearest => valuesNearest warp inv raster points
  | .bilinear => valuesBilinear warp inv height width raster points

/-! ## simplify_and_prune (hilev.py lines 499-582) -/

/-- `simplify_and_prune(hucs, reaches, ...)` (hilev.py lines 499-582): its
first statement evaluates `workflow.hydrography.filter_rivers_to_shape`, an
attribute the hydrography module (src/workflow/hydrography.py) never defines
(the module defines `filter_rivers_to_huc`), so every call — the empty reach
list included — raises AttributeError before the length check, any
simplification, or the (also mis-arity) `snap` call is reached.  Modelled as
the raised error. -/
def simplify_and_prune (hucs : HUCs) (reaches : List Seg) (simplifyTol : Q)
    (pruneReachSize : ℕ) (cutIntersections : Bool) : Except String (List Tree) :=
  .error "AttributeError: module workflow.hydrography has no attribute filter_rivers_to_shape"

/-! ## Definitions used by the concrete scenarios and statements -/

/-- A point with integer coordinates, used by the concrete scenarios. -/
def pI (a b : ℤ) : Pt := (⟨a, 1⟩, ⟨b, 1⟩)

/-- The squared norm of a tangent vector. -/
def tanNormSq (u : Pt) : Q := u.1 * u.1 + u.2 * u.2

/-- The real-valued normalized dot product the source computes in floating
point: `⟨u,m⟩ / ‖u‖` (the common positive factor `1/‖m‖` does not affect the
argmax comparison). -/
noncomputable def ndotR (u m : Pt) : ℝ :=
  (((u.1 * m.1 + u.2 * m.2).val : ℚ) : ℝ) /
    Real.sqrt (((tanNormSq u).val : ℚ) : ℝ)

/-- The three-segment junction scenario: segment 0 terminates at the origin,
segments 1 and 2 begin within tolerance of it with different directions. -/
def ySegs : List Seg :=
  [[pI (-1) 0, pI 0 0], [pI 0 0, pI 1 1], [((1 : Q) / 20, 0), (21 * (1 : Q) / 20, -(1 : Q) / 2)]]

/-- Multiset of the node segments of a tree (one occurrence per node). -/
def nodeMS (t : Tree) : Multiset Seg := (t.dfs : Multiset Seg)

open Classical in
/-- Multiset of the segments of the short leaves a `prune` call removes from
a forest of sibling subtrees. -/
noncomputable def shortLeafMSForest (tol : ℝ) : List Tree → Multiset Seg
  | [] => 0
  | .node s cs :: ts =>
    (if cs = [] ∧ lengthR s < tol then {s} else shortLeafMSForest tol cs) +
      shortLeafMSForest tol ts

/-- The pruned-at-2.0 example tree: `B = [(1,1),(2,2)]` with child
`A = [(0,0),(1,1)]`. -/
def exampleAB : Tree := .node [pI 1 1, pI 2 2] [.node [pI 0 0, pI 1 1] []]

/-- The Phase-1 index as the claim words it (a second definition, for
comparison with `riverEndCoords` from the source): each tree root's final
coordinate together with each leaf's first coordinate. -/
def specPhase1Coords (rivers : List Tree) : List Pt :=
  (rivers.map fun t => segLast t.seg) ++ (rivers.flatMap fun t => t.leaves.map segFirst)

/-- A one-segment HUC collection whose segment starts at `(1, 101/100)`, just
above the junction point of the `exampleAB` tree. -/
def hucC2 : HUCs := ⟨[[(⟨1, 1⟩, ⟨101, 100⟩), pI 5 5]], [], [], []⟩

/-- The bilinear clamp as the claim words it (a second definition, for
comparison with `bilinearOne` from the source): the lower clamp bound is
`0.5 * eps` where the source uses `eps`. -/
def bilinearOneSpecClamp (inv : Pt → Q × Q) (height width : ℕ)
    (raster : List (List Q)) (p : Pt) : Option Q := do
  let eps : Q := qSmall 10
  let ji := inv p
  let i0 := ji.2 - (1 : Q) / 2
  let j0 := ji.1 - (1 : Q) / 2
  let i := Q.qmax (eps / 2) (Q.qmin ((height : Q) - 1 - eps) i0)
  let j := Q.qmax (eps / 2) (Q.qmin ((width : Q) - 1 - eps) j0)
  let v00 ← npGet2 raster (Q.floor i) (Q.floor j)
  let v01 ← npGet2 raster (Q.floor i) (Q.ceil j)
  let v10 ← npGet2 raster (Q.ceil i) (Q.floor j)
  let v11 ← npGet2 raster (Q.ceil i) (Q.ceil j)
  let ii := i - Q.ofInt (Q.floor i)
  let jj := j - Q.ofInt (Q.floor j)
  let up := v00 + jj * (v01 - v00)
  let dn := v10 + jj * (v11 - v10)
  pure (up + (dn - up) * ii)

/-- The projection sort key order is total. -/

instance instKeyLeTotal (seg : Seg) : IsTotal Flagged (keyLe seg) where
  total a b := by
    unfold keyLe
    rcases lt_trichotomy (projKey seg a.1).1 (projKey seg b.1).1 with h | h | h
    · exact Or.inl (Or.inl h)
    · rw [Q.ble, Q.ble]
      rcases le_total ((projKey seg a.1).2.n * (((projKey seg b.1).2.d : ℕ) : ℤ))
        (((projKey seg b.1).2.n * (((projKey seg a.1).2.d : ℕ) : ℤ))) with h2 | h2
      · exact Or.inl (Or.inr ⟨h, decide_eq_true h2⟩)
      · exact Or.inr (Or.inr ⟨h.symm, decide_eq_true h2⟩)
    · exact Or.inr (Or.inl h)

/-- The projection sort key order is transitive. -/
instance instKeyLeTrans (seg : Seg) : IsTrans Flagged (keyLe seg) where
  trans a b c hab hbc := by
    unfold keyLe at *
    rcases hab with h1 | ⟨h1, h1'⟩ <;> rcases hbc with h2 | ⟨h2, h2'⟩
    · exact Or.inl (lt_trans h1 h2)
    · exact Or.inl (h2 ▸ h1)
    · exact Or.inl (h1 ▸ h2)
    · refine Or.inr ⟨h1.trans h2, ?_⟩
      rw [Q.ble] at h1' h2' ⊢
      have hA := of_decide_eq_true h1'
      have hB := of_decide_eq_true h2'
      apply decide_eq_true
      set x := (projKey seg a.1).2
      set y := (projKey seg b.1).2
      set z := (projKey seg c.1).2
      have hdx : (0 : ℤ) < ((x.d : ℕ) : ℤ) := by exact_mod_cast x.d.pos
      have hdy : (0 : ℤ) < ((y.d : ℕ) : ℤ) := by exact_mod_cast y.d.pos
      have hdz : (0 : ℤ) < ((z.d : ℕ) : ℤ) := by exact_mod_cast z.d.pos
      nlinarith [mul_le_mul_of_nonneg_right hA hdz.le, mul_le_mul_of_nonneg_right hB hdx.le]

/-- A one-segment HUC collection (the bottom edge of a box) with two
insertion entries on the same handle, for the Phase-2 splitting scenarios. -/
def hC7 : HUCs := ⟨[[pI 0 0, pI 10 0]], [[0]], [], []⟩

/-- An insertion entry at `(3, 0)` on handle 0 of the boundary component. -/
def eC7a : AddEntry := ⟨0, (true, 0), true, pI 3 0⟩

/-- An insertion entry at `(7, 0)` on handle 0 of the boundary component. -/
def eC7b : AddEntry := ⟨0, (true, 0), true, pI 7 0⟩

/-- A one-segment HUC collection for the exact-coincidence scenario. -/
def hC3 : HUCs := ⟨[[pI 0 0, pI 10 0]], [[0]], [], []⟩

/-- A two-reach tree whose two endpoints snap onto the boundary segment at
`x = 3` and `x = 3 + 5e-6` — within the 1e-5 deduplication tolerance of each
other but not equal. -/
def t3 : Tree :=
  .node [pI 3 1, (⟨3, 1⟩, ⟨1, 1000⟩)]
    [.node [(⟨600001, 200000⟩, 1), (⟨600001, 200000⟩, ⟨1, 1000⟩)] []]

/-- The tree `snap_endpoints` returns for `t3` (endpoints snapped). -/
def t3out : Tree :=
  .node [(⟨3, 1⟩, ⟨1, 1⟩), (⟨300000, 100000⟩, ⟨0, 100000⟩)]
    [.node [(⟨600001, 200000⟩, ⟨1, 1⟩),
      (⟨60000100000, 20000000000⟩, ⟨0, 20000000000⟩)] []]

/-- The HUC collection `snap_endpoints` returns for `t3` (one vertex
inserted, at the deduplication survivor `(3, 0)` only). -/
def h3out : HUCs :=
  ⟨[[(⟨0, 1⟩, ⟨0, 1⟩), (⟨300000, 100000⟩, ⟨0, 100000⟩)],
    [(⟨300000, 100000⟩, ⟨0, 100000⟩), (⟨10, 1⟩, ⟨0, 1⟩)]], [[0, 1]], [], []⟩

/-- A well-formed square HUC collection: four boundary segments in one
component, one polygon, and a ring that closes. -/
def sqC1 : HUCs :=
  ⟨[[pI 0 0, pI 10 0], [pI 10 0, pI 10 10], [pI 10 10, pI 0 10], [pI 0 10, pI 0 0]],
   [[0, 1, 2, 3]], [], [[(true, 0)]]⟩

/-- A consistent single-reach river whose endpoint `(10, -1/20)` snaps exactly
onto the square's corner `(10, 0)` — the final vertex of the bottom segment. -/
def rivC1 : Tree := .node [pI 5 5, (⟨10, 1⟩, -⟨1, 20⟩)] []

/-- A consistent single-reach river whose endpoint `(3, 1e-6)` snaps onto the
interior of the square's bottom segment. -/
def rivB : Tree := .node [pI 5 5, (⟨3, 1⟩, ⟨1, 1000000⟩)] []

/-! ## Helper lemmas -/

/-- Denominators are positive (as rationals). -/
theorem Q.dpos (x : Q) : (0 : ℚ) < ((x.d : ℕ) : ℚ) := by
  exact_mod_cast x.d.pos

/-- The boolean strict comparison agrees with the represented values. -/
theorem Q.blt_iff (x y : Q) : Q.blt x y = true ↔ x.val < y.val := by
  rw [Q.blt, decide_eq_true_eq, Q.val, Q.val, div_lt_div_iff (Q.dpos x) (Q.dpos y)]
  constructor <;> intro h <;> exact_mod_cast h

/-- The boolean comparison agrees with the represented values. -/
theorem Q.ble_iff (x y : Q) : Q.ble x y = true ↔ x.val ≤ y.val := by
  rw [Q.ble, decide_eq_true_eq, Q.val, Q.val, div_le_div_iff (Q.dpos x) (Q.dpos y)]
  constructor <;> intro h <;> exact_mod_cast h

/-- The boolean equality test agrees with the represented values. -/
theorem Q.beq_iff (x y : Q) : Q.beq x y = true ↔ x.val = y.val := by
  rw [Q.beq, decide_eq_true_eq, Q.val, Q.val,
    div_eq_div_iff (Q.dpos x).ne.symm (Q.dpos y).ne.symm]
  constructor <;> intro h <;> exact_mod_cast h

/-- Unfolding the value of a literal fraction. -/
theorem Q.val_mk (a : ℤ) (b : ℕ+) : Q.val ⟨a, b⟩ = (a : ℚ) / ((b : ℕ) : ℚ) := rfl

/-- Value of a numeric literal. -/
theorem Q.val_ofNat (k : ℕ) : (OfNat.ofNat k : Q).val = (k : ℚ) := by
  rw [show (OfNat.ofNat k : Q) = ⟨(k : ℤ), 1⟩ from rfl, Q.val_mk]
  simp

/-- Value of an embedded integer. -/
theorem Q.val_ofInt (k : ℤ) : (Q.ofInt k).val = k := by
  simp [Q.ofInt, Q.val]

/-- Value of a natural-number cast. -/
theorem Q.val_natCast (k : ℕ) : ((k : Q)).val = k := by
  show Q.val ⟨k, 1⟩ = k
  simp [Q.val]

/-- Value of a sum. -/
theorem Q.val_add (x y : Q) : (x + y).val = x.val + y.val := by
  show Q.val ⟨x.n * ((y.d : ℕ) : ℤ) + y.n * ((x.d : ℕ) : ℤ), x.d * y.d⟩ = _
  rw [Q.val, Q.val, Q.val]
  have hx := (Q.dpos x).ne.symm
  have hy := (Q.dpos y).ne.symm
  push_cast
  field_simp

/-- Value of a difference. -/
theorem Q.val_sub (x y : Q) : (x - y).val = x.val - y.val := by
  show Q.val ⟨x.n * ((y.d : ℕ) : ℤ) - y.n * ((x.d : ℕ) : ℤ), x.d * y.d⟩ = _
  rw [Q.val, Q.val, Q.val]
  have hx := (Q.dpos x).ne.symm
  have hy := (Q.dpos y).ne.symm
  push_cast
  field_simp
  ring

/-- Value of a product. -/
theorem Q.val_mul (x y : Q) : (x * y).val = x.val * y.val := by
  show Q.val ⟨x.n * y.n, x.d * y.d⟩ = _
  rw [Q.val, Q.val, Q.val]
  push_cast
  field_simp

/-- Value of a negation. -/
theorem Q.val_neg (x : Q) : (-x).val = -x.val := by
  show Q.val ⟨-x.n, x.d⟩ = _
  rw [Q.val, Q.val]
  push_cast
  field_simp

/-- Unfolding the value of a fraction given by a positive numerator proof. -/
theorem Q.val_mkmk (a : ℤ) (k : ℕ) (hk : 0 < k) :
    Q.val ⟨a, ⟨k, hk⟩⟩ = (a : ℚ) / (k : ℚ) := rfl

/-- Value of the inverse (with the shared division-by-zero convention). -/
theorem Q.val_inv (x : Q) : (Q.inv x).val = x.val⁻¹ := by
  rw [Q.inv]
  by_cases h : x.n = 0
  · rw [dif_pos h]
    have hx : x.val = 0 := by rw [Q.val, h]; simp
    rw [hx]
    rw [show (⟨0, 1⟩ : Q).val = 0 by rw [Q.val_mk]; simp]
    simp
  · rw [dif_neg h]
    have hd : ((x.d : ℕ) : ℚ) ≠ 0 := (Q.dpos x).ne.symm
    by_cases hpos : 0 < x.n
    · rw [if_pos hpos, Q.val_mkmk, Q.val, Int.cast_natAbs, Int.cast_abs,
        abs_of_pos (show (0 : ℚ) < (x.n : ℚ) by exact_mod_cast hpos), inv_div]
      push_cast
      ring
    · have hneg : x.n < 0 := lt_of_le_of_ne (not_lt.mp hpos) h
      rw [if_neg hpos, Q.val_mkmk, Q.val, Int.cast_natAbs, Int.cast_abs,
        abs_of_neg (show (x.n : ℚ) < 0 by exact_mod_cast hneg), inv_div]
      push_cast
      ring

/-- Value of a quotient. -/
theorem Q.val_div (x y : Q) : (x / y).val = x.val / y.val := by
  show (x * Q.inv y).val = _
  rw [Q.val_mul, Q.val_inv, div_eq_mul_inv]

/-- Value of the minimum. -/
theorem Q.val_qmin (x y : Q) : (Q.qmin x y).val = min x.val y.val := by
  rw [Q.qmin]
  by_cases h : Q.ble x y = true
  · rw [if_pos h, min_eq_left (Q.ble_iff x y |>.mp h)]
  · rw [if_neg h]
    have := not_le.mp fun hc => h ((Q.ble_iff x y).mpr hc)
    rw [min_eq_right this.le]

/-- Value of the maximum. -/
theorem Q.val_qmax (x y : Q) : (Q.qmax x y).val = max x.val y.val := by
  rw [Q.qmax]
  by_cases h : Q.ble x y = true
  · rw [if_pos h, max_eq_right (Q.ble_iff x y |>.mp h)]
  · rw [if_neg h]
    have := not_le.mp fun hc => h ((Q.ble_iff x y).mpr hc)
    rw [max_eq_left this.le]

/-- `seg` unfolded at a node. -/
@[simp] theorem Tree.seg_node (s : Seg) (cs : List Tree) : (Tree.node s cs).seg = s := rfl

/-- `children` unfolded at a node. -/
@[simp] theorem Tree.children_node (s : Seg) (cs : List Tree) :
    (Tree.node s cs).children = cs := rfl

/-- `dfs` unfolded at a node. -/
theorem Tree.dfs_node (s : Seg) (cs : List Tree) :
    (Tree.node s cs).dfs = s :: dfsForest cs := rfl

/-- `dfsForest` unfolded on nil. -/
theorem dfsForest_nil : dfsForest [] = [] := rfl

/-- `dfsForest` unfolded on cons. -/
theorem dfsForest_cons (t : Tree) (ts : List Tree) :
    dfsForest (t :: ts) = t.dfs ++ dfsForest ts := rfl

/-- Membership in the segment list of a forest traversal. -/
theorem dfsForest_mem {x : Seg} : ∀ {ts : List Tree},
    x ∈ dfsForest ts ↔ ∃ t ∈ ts, x ∈ t.dfs
  | [] => by simp [dfsForest_nil]
  | t :: ts => by
    rw [dfsForest_cons, List.mem_append, dfsForest_mem]
    simp

/-- `consAux` unfolded at a node. -/
theorem Tree.consAux_node (s : Seg) (cs : List Tree) (pf : Pt) :
    Tree.consAux (.node s cs) pf =
      (beqPt (segLast s) pf && consForest (segFirst s) cs) := rfl

/-- `consForest` as a membership statement. -/
theorem consForest_iff {pf : Pt} : ∀ {ts : List Tree},
    consForest pf ts = true ↔ ∀ t ∈ ts, Tree.consAux t pf = true
  | [] => by simp [consForest, Tree.consAux.go]
  | t :: ts => by
    show Tree.consAux.go (t :: ts) pf = true ↔ _
    rw [Tree.consAux.go, Bool.and_eq_true, List.forall_mem_cons]
    exact and_congr Iff.rfl consForest_iff

/-- `is_consistent` unfolded at a node. -/
theorem is_consistent_node (s : Seg) (cs : List Tree) :
    is_consistent (.node s cs) = consForest (segFirst s) cs := rfl

/-- Value equality of scalars is reflexive. -/
theorem Q.beq_refl (x : Q) : Q.beq x x = true := by
  simp [Q.beq]

/-- Value equality of points is reflexive. -/
theorem beqPt_refl (p : Pt) : beqPt p p = true := by
  simp [beqPt, Q.beq_refl]

/-- The length of a two-point segment is the distance between the points. -/
theorem lengthR_pair (p q : Pt) :
    lengthR [p, q] = Real.sqrt (((distSq p q).val : ℚ) : ℝ) := by
  simp [lengthR, edges]

/-- The first coordinate survives replacing the last coordinate, for genuine
(two-or-more point) segments. -/
theorem segFirst_dropLast_append {s : Seg} (h : 2 ≤ s.length) (p : Pt) :
    segFirst (s.dropLast ++ [p]) = segFirst s := by
  match s, h with
  | a :: b :: rest, _ => simp [segFirst]

/-- The last coordinate after re-homing is the re-homed coordinate. -/
theorem segLast_dropLast_append (s : Seg) (p : Pt) :
    segLast (s.dropLast ++ [p]) = p := by
  simp [segLast]

/-- Re-homing keeps the coordinate count. -/
theorem length_dropLast_append {s : Seg} (h : 2 ≤ s.length) (p : Pt) :
    (s.dropLast ++ [p]).length = s.length := by
  match s, h with
  | a :: b :: rest, _ => simp

/-- Comparing two ratios `A/sqrt P` and `B/sqrt Q` with positive radicands by
sign analysis and cross-multiplied squares. -/
theorem ndotCore (A B P Qr : ℝ) (hP : 0 < P) (hQ : 0 < Qr) :
    ((if A < 0 then (0 ≤ B ∨ B * B * P < A * A * Qr)
      else (0 ≤ B ∧ A * A * Qr < B * B * P)) ↔
      A / Real.sqrt P < B / Real.sqrt Qr) := by
  have hsP : 0 < Real.sqrt P := Real.sqrt_pos.mpr hP
  have hsQ : 0 < Real.sqrt Qr := Real.sqrt_pos.mpr hQ
  have hsP2 : Real.sqrt P * Real.sqrt P = P := Real.mul_self_sqrt hP.le
  have hsQ2 : Real.sqrt Qr * Real.sqrt Qr = Qr := Real.mul_self_sqrt hQ.le
  rw [div_lt_div_iff hsP hsQ]
  by_cases hA : A < 0
  · rw [if_pos hA]
    constructor
    · rintro (hB | hlt)
      · calc A * Real.sqrt Qr < 0 := mul_neg_of_neg_of_pos hA hsQ
          _ ≤ B * Real.sqrt P := mul_nonneg hB hsP.le
      · by_cases hB : 0 ≤ B
        · calc A * Real.sqrt Qr < 0 := mul_neg_of_neg_of_pos hA hsQ
            _ ≤ B * Real.sqrt P := mul_nonneg hB hsP.le
        · push_neg at hB
          by_contra hc
          push_neg at hc
          have h1 : 0 ≤ -(A * Real.sqrt Qr) := by nlinarith
          have h2 : -(A * Real.sqrt Qr) ≤ -(B * Real.sqrt P) := by linarith
          have h3 := mul_self_le_mul_self h1 h2
          have : A * A * Qr ≤ B * B * P := by
            calc A * A * Qr = -(A * Real.sqrt Qr) * -(A * Real.sqrt Qr) := by
                  rw [show A * A * Qr = A * A * (Real.sqrt Qr * Real.sqrt Qr) by rw [hsQ2]]
                  ring
              _ ≤ -(B * Real.sqrt P) * -(B * Real.sqrt P) := h3
              _ = B * B * P := by
                  rw [show B * B * P = B * B * (Real.sqrt P * Real.sqrt P) by rw [hsP2]]
                  ring
          linarith
    · intro h
      by_cases hB : 0 ≤ B
      · exact Or.inl hB
      · push_neg at hB
        refine Or.inr ?_
        have h1 : 0 ≤ -(B * Real.sqrt P) := by nlinarith
        have h2 : -(B * Real.sqrt P) < -(A * Real.sqrt Qr) := by linarith
        have h3 := mul_self_lt_mul_self h1 h2
        calc B * B * P = -(B * Real.sqrt P) * -(B * Real.sqrt P) := by
              rw [show B * B * P = B * B * (Real.sqrt P * Real.sqrt P) by rw [hsP2]]
              ring
          _ < -(A * Real.sqrt Qr) * -(A * Real.sqrt Qr) := h3
          _ = A * A * Qr := by
              rw [show A * A * Qr = A * A * (Real.sqrt Qr * Real.sqrt Qr) by rw [hsQ2]]
              ring
  · rw [if_neg hA]
    push_neg at hA
    constructor
    · rintro ⟨hB, hlt⟩
      have h1 : 0 ≤ A * Real.sqrt Qr := mul_nonneg hA hsQ.le
      by_contra hc
      push_neg at hc
      have h3 := mul_self_le_mul_self (mul_nonneg hB hsP.le) hc
      have : B * B * P ≤ A * A * Qr := by
        calc B * B * P = B * Real.sqrt P * (B * Real.sqrt P) := by
              rw [show B * B * P = B * B * (Real.sqrt P * Real.sqrt P) by rw [hsP2]]
              ring
          _ ≤ A * Real.sqrt Qr * (A * Real.sqrt Qr) := h3
          _ = A * A * Qr := by
              rw [show A * A * Qr = A * A * (Real.sqrt Qr * Real.sqrt Qr) by rw [hsQ2]]
              ring
      linarith
    · intro h
      have h1 : 0 ≤ A * Real.sqrt Qr := mul_nonneg hA hsQ.le
      have hBP : 0 < B * Real.sqrt P := lt_of_le_of_lt h1 h
      have hB : 0 ≤ B := by
        by_contra hB
        push_neg at hB
        exact absurd hBP (not_lt.mpr (mul_neg_of_neg_of_pos hB hsP).le)
      exact ⟨hB, by
        have h3 := mul_self_lt_mul_self h1 h
        calc A * A * Qr = A * Real.sqrt Qr * (A * Real.sqrt Qr) := by
              rw [show A * A * Qr = A * A * (Real.sqrt Qr * Real.sqrt Qr) by rw [hsQ2]]
              ring
          _ < B * Real.sqrt P * (B * Real.sqrt P) := h3
          _ = B * B * P := by
              rw [show B * B * P = B * B * (Real.sqrt P * Real.sqrt P) by rw [hsP2]]
              ring⟩

/-- The value of the zero literal. -/
theorem Q.val_zero : (0 : Q).val = 0 := by
  rw [Q.val_ofNat]
  norm_num

/-- The exact rational comparator `ndotLt` decides exactly the comparison of
the real normalized dot products, for tangents of positive norm. -/
theorem ndotLt_iff (u v m : Pt)
    (hu : 0 < (tanNormSq u).val) (hv : 0 < (tanNormSq v).val) :
    (ndotLt u v m = true ↔ ndotR u m < ndotR v m) := by
  have key := ndotCore (((u.1 * m.1 + u.2 * m.2).val : ℝ))
    (((v.1 * m.1 + v.2 * m.2).val : ℝ))
    (((tanNormSq u).val : ℝ)) (((tanNormSq v).val : ℝ))
    (by exact_mod_cast hu) (by exact_mod_cast hv)
  rw [show ndotR u m = ((u.1 * m.1 + u.2 * m.2).val : ℝ) /
      Real.sqrt (((tanNormSq u).val : ℝ)) from rfl]
  rw [show ndotR v m = ((v.1 * m.1 + v.2 * m.2).val : ℝ) /
      Real.sqrt (((tanNormSq v).val : ℝ)) from rfl]
  rw [← key, ndotLt]
  by_cases hab : Q.blt (u.1 * m.1 + u.2 * m.2) 0 = true
  · have ha : (u.1 * m.1 + u.2 * m.2).val < 0 := by
      have := (Q.blt_iff _ _).mp hab
      rwa [Q.val_zero] at this
    rw [if_pos hab, if_pos (show ((u.1 * m.1 + u.2 * m.2).val : ℝ) < 0 by exact_mod_cast ha)]
    rw [Bool.or_eq_true, Q.ble_iff, Q.blt_iff, Q.val_zero, Q.val_mul, Q.val_mul,
      Q.val_mul, Q.val_mul]
    rw [show (tanNormSq u).val = (u.1 * u.1 + u.2 * u.2).val from rfl,
      show (tanNormSq v).val = (v.1 * v.1 + v.2 * v.2).val from rfl]
    constructor
    · rintro (h | h)
      · exact Or.inl (by exact_mod_cast h)
      · exact Or.inr (by exact_mod_cast h)
    · rintro (h | h)
      · exact Or.inl (by exact_mod_cast h)
      · exact Or.inr (by exact_mod_cast h)
  · have ha : ¬ (u.1 * m.1 + u.2 * m.2).val < 0 := by
      intro hc
      exact hab ((Q.blt_iff _ _).mpr (by rwa [Q.val_zero]))
    rw [if_neg hab, if_neg (show ¬ ((u.1 * m.1 + u.2 * m.2).val : ℝ) < 0 by
      intro hc; exact ha (by exact_mod_cast hc))]
    rw [Bool.and_eq_true, Q.ble_iff, Q.blt_iff, Q.val_zero, Q.val_mul, Q.val_mul,
      Q.val_mul, Q.val_mul]
    rw [show (tanNormSq u).val = (u.1 * u.1 + u.2 * u.2).val from rfl,
      show (tanNormSq v).val = (v.1 * v.1 + v.2 * v.2).val from rfl]
    constructor
    · rintro ⟨h1, h2⟩
      exact ⟨by exact_mod_cast h1, by exact_mod_cast h2⟩
    · rintro ⟨h1, h2⟩
      exact ⟨by exact_mod_cast h1, by exact_mod_cast h2⟩

/-- The `argmax` fold returns a member of the candidate list whose normalized
dot product is maximal (the source's `np.argmax(dots)`). -/
theorem argmaxFold_spec (m : Pt) :
    ∀ (cs : List (ℕ × Pt)) (c : ℕ × Pt),
      (∀ x ∈ c :: cs, 0 < (tanNormSq x.2).val) →
      (cs.foldl (fun best x => if ndotLt best.2 x.2 m then x else best) c) ∈ c :: cs ∧
      ∀ x ∈ c :: cs, ndotR x.2 m ≤
        ndotR (cs.foldl (fun best x => if ndotLt best.2 x.2 m then x else best) c).2 m := by
  intro cs
  induction cs with
  | nil =>
    intro c h
    refine ⟨List.mem_singleton.mpr rfl, ?_⟩
    intro x hx
    rw [List.mem_singleton.mp hx]
    exact le_refl _
  | cons y ys ih =>
    intro c h
    rw [List.foldl_cons]
    by_cases hlt : ndotLt c.2 y.2 m = true
    · rw [if_pos hlt]
      have hsub : ∀ x ∈ y :: ys, 0 < (tanNormSq x.2).val := by
        intro x hx
        exact h x (List.mem_cons_of_mem c hx)
      obtain ⟨hmem, hmax⟩ := ih y hsub
      refine ⟨List.mem_cons_of_mem c hmem, ?_⟩
      intro x hx
      rcases List.mem_cons.mp hx with hx | hx
      · subst hx
        have hcy : ndotR x.2 m < ndotR y.2 m :=
          (ndotLt_iff x.2 y.2 m (h x (List.mem_cons_self x _))
            (h y (List.mem_cons_of_mem x (List.mem_cons_self y _)))).mp hlt
        exact le_trans hcy.le (hmax y (List.mem_cons_self y _))
      · exact hmax x hx
    · rw [if_neg hlt]
      have hsub : ∀ x ∈ c :: ys, 0 < (tanNormSq x.2).val := by
        intro x hx
        rcases List.mem_cons.mp hx with hx | hx
        · exact hx ▸ h c (List.mem_cons_self c _)
        · exact h x (List.mem_cons_of_mem c (List.mem_cons_of_mem y hx))
      obtain ⟨hmem, hmax⟩ := ih c hsub
      constructor
      · rcases List.mem_cons.mp hmem with hm | hm
        · rw [hm]
          exact List.mem_cons_self c _
        · exact List.mem_cons_of_mem c (List.mem_cons_of_mem y hm)
      · intro x hx
        rcases List.mem_cons.mp hx with hx | hx
        · exact hx ▸ hmax c (List.mem_cons_self c _)
        · rcases List.mem_cons.mp hx with hx | hx
          · subst hx
            have hcy : ¬ ndotR c.2 m < ndotR x.2 m := fun hc =>
              hlt ((ndotLt_iff c.2 x.2 m (h c (List.mem_cons_self c _))
                (h x (List.mem_cons_of_mem c (List.mem_cons_self x _)))).mpr hc)
            exact le_trans (not_lt.mp hcy) (hmax c (List.mem_cons_self c _))
          · exact hmax x (List.mem_cons_of_mem c hx)

/-- `argmaxDot` picks the index of a candidate achieving the maximal
normalized dot product with the terminating segment's final tangent. -/
theorem argmaxDot_spec (m : Pt) (c : ℕ × Pt) (cs : List (ℕ × Pt))
    (h : ∀ x ∈ c :: cs, 0 < (tanNormSq x.2).val) :
    ∃ r ∈ c :: cs, r.1 = argmaxDot m (c :: cs) ∧
      ∀ x ∈ c :: cs, ndotR x.2 m ≤ ndotR r.2 m := by
  obtain ⟨hmem, hmax⟩ := argmaxFold_spec m cs c h
  exact ⟨_, hmem, rfl, hmax⟩

/-! ## Claim C4 -/

/-- Claim C4 (counterexample): the KD-tree of begin points contains each
segment's own begin point, so for a single segment whose begin point lies
within `tol` of its own end point there are zero *other* matching segments,
yet the candidate list is `[0]` (itself), the segment is attached as its own
child rather than becoming a forest root, and `make_global_tree` returns the
empty forest — the segment is silently dropped. -/
theorem make_global_tree_self_match :
    ballCandidates [[pI 0 0, pI 1 1]] 2 0 = [0] ∧
    parentIdx [[pI 0 0, pI 1 1]] 2 0 = some 0 ∧
    make_global_tree [[pI 0 0, pI 1 1]] 2 = [] := by decide

/-- Claim C4 (amended): for every segment `j`, the candidate list is exactly
the set of input segments (the segment itself included) whose begin point
lies within `tol` of `j`'s end point, in index order; `j` becomes a forest
root precisely when this list is empty; a singleton candidate list `[c]`
attaches `j` as a child of `c`; and with two or more candidates (all of whose
initial tangents are nonzero) `j` is attached to a candidate maximizing the
normalized dot product of the candidate's initial tangent with `j`'s final
tangent. No segment is dropped from the *assignment*, but a segment attached
to itself or to a non-root cycle never appears under any returned root. -/
theorem make_global_tree_assignment (rivers : List Seg) (tol : Q) (j : ℕ)
    (hj : j < rivers.length) :
    (∀ i, i ∈ ballCandidates rivers tol j ↔ i < rivers.length ∧
      (distSq (segFirst (rivers.getD i [])) (segLast (rivers.getD j []))).val ≤
        (tol * tol).val) ∧
    (ballCandidates rivers tol j = [] ↔ j ∈ rootIdxs rivers tol) ∧
    (∀ c, ballCandidates rivers tol j = [c] → parentIdx rivers tol j = some c) ∧
    (∀ c c' cs, ballCandidates rivers tol j = c :: c' :: cs →
      (∀ i ∈ c :: c' :: cs,
        Q.blt 0 (tanNormSq (initTan (rivers.getD i []))) = true) →
      ∃ w ∈ c :: c' :: cs, parentIdx rivers tol j = some w ∧
        ∀ i ∈ c :: c' :: cs,
          ndotR (initTan (rivers.getD i [])) (finalTan (rivers.getD j [])) ≤
          ndotR (initTan (rivers.getD w [])) (finalTan (rivers.getD j []))) := by
  refine ⟨?_, ⟨?_, ?_⟩, ?_, ?_⟩
  · intro i
    rw [ballCandidates, List.mem_filter, List.mem_range, Q.ble_iff]
  · intro h
    rw [rootIdxs, List.mem_filter, List.mem_range]
    exact ⟨hj, by rw [parentIdx, h]; rfl⟩
  · intro h
    rw [rootIdxs, List.mem_filter] at h
    obtain ⟨-, hn⟩ := h
    cases hcand : ballCandidates rivers tol j with
    | nil => rfl
    | cons c cs =>
      rw [parentIdx, hcand] at hn
      cases cs <;> simp at hn
  · intro c h
    rw [parentIdx, h]
  · intro c c' cs h hpos
    rw [parentIdx, h]
    set m := finalTan (rivers.getD j []) with hm
    have hmap : ((c :: c' :: cs).map fun i => (i, initTan (rivers.getD i []))) =
        (c, initTan (rivers.getD c [])) ::
          ((c' :: cs).map fun i => (i, initTan (rivers.getD i []))) := by
      rw [List.map_cons]
    have hposm : ∀ x ∈ (c, initTan (rivers.getD c [])) ::
        ((c' :: cs).map fun i => (i, initTan (rivers.getD i []))),
        0 < (tanNormSq x.2).val := by
      intro x hx
      rw [← hmap, List.mem_map] at hx
      obtain ⟨i, hi, hix⟩ := hx
      have := (Q.blt_iff _ _).mp (hpos i hi)
      rw [Q.val_zero] at this
      rw [← hix]
      exact this
    obtain ⟨r, hrmem, hr1, hrmax⟩ :=
      argmaxDot_spec m (c, initTan (rivers.getD c []))
        ((c' :: cs).map fun i => (i, initTan (rivers.getD i []))) hposm
    rw [← hmap, List.mem_map] at hrmem
    obtain ⟨w, hw, hwr⟩ := hrmem
    refine ⟨w, hw, ?_, ?_⟩
    · show some (argmaxDot m
        (List.map (fun i => (i, initTan (rivers.getD i []))) (c :: c' :: cs))) = some w
      rw [hmap, ← hr1, ← hwr]
    · intro i hi
      have hmemi : (i, initTan (rivers.getD i [])) ∈
          (c, initTan (rivers.getD c [])) ::
            ((c' :: cs).map fun i => (i, initTan (rivers.getD i []))) := by
        rw [← hmap, List.mem_map]
        exact ⟨i, hi, rfl⟩
      have := hrmax _ hmemi
      rw [← hwr] at this
      exact this

/-- Claim C4 (witness): at the concrete three-segment junction `ySegs` with
`tol = 1/10`, segment 0's candidates are `[1, 2]` and the amended theorem
yields the dot-product winner, which is segment 2. -/
theorem make_global_tree_assignment_witness :
    parentIdx ySegs ⟨1, 10⟩ 0 = some 2 ∧
    ∃ w ∈ [1, 2], parentIdx ySegs ⟨1, 10⟩ 0 = some w ∧
      ∀ i ∈ [1, 2],
        ndotR (initTan (ySegs.getD i [])) (finalTan (ySegs.getD 0 [])) ≤
        ndotR (initTan (ySegs.getD w [])) (finalTan (ySegs.getD 0 [])) :=
  ⟨by decide,
    (make_global_tree_assignment ySegs ⟨1, 10⟩ 0 (by decide)).2.2.2 1 2 []
      (by decide) (by decide)⟩

/-- The nearest-point fold returns an in-range index whose squared distance
is minimal over the pool (the first such index on ties). -/
theorem nearestIdx_go_spec (p : Pt) :
    ∀ (coords : List Pt) (i : ℕ), coords ≠ [] →
      ∃ j d, nearestIdx.go p coords i = some (j, d) ∧ i ≤ j ∧ j - i < coords.length ∧
        d = distSq (coords.getD (j - i) (0, 0)) p ∧
        ∀ q ∈ coords, d.val ≤ (distSq q p).val := by
  intro coords
  induction coords with
  | nil => intro i h; exact absurd rfl h
  | cons c cs ih =>
    intro i _
    by_cases hcs : cs = []
    · subst hcs
      refine ⟨i, distSq c p, rfl, le_refl i, by simp, by simp, ?_⟩
      intro q hq
      rw [List.mem_singleton] at hq
      rw [hq]
    · obtain ⟨j, d, hgo, hge, hlt, hd, hmin⟩ := ih (i + 1) hcs
      have hred : nearestIdx.go p (c :: cs) i =
          if Q.blt d (distSq c p) = true then some (j, d) else some (i, distSq c p) := by
        rw [nearestIdx.go, hgo]
      rw [hred]
      by_cases hb : Q.blt d (distSq c p) = true
      · rw [if_pos hb]
        have hdlt := (Q.blt_iff _ _).mp hb
        refine ⟨j, d, rfl, by omega, by simp; omega, ?_, ?_⟩
        · rw [hd]
          have : j - i = (j - (i + 1)) + 1 := by omega
          rw [this]
          simp
        · intro q hq
          rcases List.mem_cons.mp hq with hq | hq
          · rw [hq]; exact hdlt.le
          · exact hmin q hq
      · rw [if_neg hb]
        have hdge : (distSq c p).val ≤ d.val := by
          have := fun hc => hb ((Q.blt_iff _ _).mpr hc)
          exact not_lt.mp this
        refine ⟨i, distSq c p, rfl, le_refl i, by simp, by simp, ?_⟩
        intro q hq
        rcases List.mem_cons.mp hq with hq | hq
        · rw [hq]
        · exact le_trans hdge (hmin q hq)

/-- `kdtree.query`: on a non-empty pool, `nearestIdx` returns an index into
the pool realizing the minimal squared distance to the query point. -/
theorem nearestIdx_spec (coords : List Pt) (p : Pt) (h : coords ≠ []) :
    ∃ j d, nearestIdx coords p = some (j, d) ∧ j < coords.length ∧
      d = distSq (coords.getD j (0, 0)) p ∧
      ∀ q ∈ coords, d.val ≤ (distSq q p).val := by
  obtain ⟨j, d, hgo, -, hlt, hd, hmin⟩ := nearestIdx_go_spec p coords 0 h
  exact ⟨j, d, hgo, by omega, by simpa using hd, hmin⟩

/-- `getD` commutes with `map` at in-range indices. -/
theorem getD_map_of_lt {α β : Type} (f : α → β) (l : List α) (k : ℕ)
    (hk : k < l.length) (d : β) (d' : α) :
    (l.map f).getD k d = f (l.getD k d') := by
  rw [List.getD_eq_getElem _ _ (by simpa using hk), List.getD_eq_getElem _ _ hk,
    List.getElem_map]

/-- The segment pool of `snap_polygon_endpoints`, unfolded. -/
theorem snap_polygon_endpoints_segments (h : HUCs) (rivers : List Tree) (tol : Q) :
    (snap_polygon_endpoints h rivers tol).segments =
      h.segments.map fun seg =>
        match nearestIdx (riverEndCoords rivers) (segFirst seg),
              nearestIdx (riverEndCoords rivers) (segLast seg) with
        | some i0, some i1 =>
          if Q.blt i0.2 (tol * tol) || Q.blt i1.2 (tol * tol) then
            let ns := seg
            let ns := if Q.blt i0.2 (tol * tol) then
              setFirst ns ((riverEndCoords rivers).getD i0.1 (0, 0)) else ns
            let ns := if Q.blt i1.2 (tol * tol) then
              setLast ns ((riverEndCoords rivers).getD i1.1 (0, 0)) else ns
            ns
          else seg
        | _, _ => seg := rfl

/-! ## Claim C2 -/

/-- Claim C2 (counterexample): the Phase-1 KD-tree pool holds the final
coordinate of *every* reach in every tree's depth-first traversal, not only
the roots' outlets: for the two-reach tree `exampleAB` the junction `(1, 1)`
(the child reach's final coordinate) is in the source's pool but not in the
claim's index, and the HUC segment endpoint `(1, 101/100)` — farther than
`tol = 1/10` from every point of the claim's index — is nevertheless snapped
to `(1, 1)`. -/
theorem snap_polygon_endpoints_index_mismatch :
    specPhase1Coords [exampleAB] = [pI 2 2, pI 0 0] ∧
    riverEndCoords [exampleAB] = [pI 2 2, pI 1 1, pI 0 0] ∧
    (∀ p ∈ specPhase1Coords [exampleAB],
      Q.ble (Q.mk 1 10 * Q.mk 1 10) (distSq p (segFirst (hucC2.segments.getD 0 []))) = true) ∧
    (snap_polygon_endpoints hucC2 [exampleAB] (Q.mk 1 10)).segments = [[pI 1 1, pI 5 5]] ∧
    pI 1 1 ∉ specPhase1Coords [exampleAB] := by
  decide

/-- Claim C2 (amended): the Phase-1 pool contains the claim's index (roots'
final coordinates and leaves' first coordinates) but is built from the final
coordinates of *all* tree nodes plus the leaves' first coordinates; for every
pooled HUC segment, each of its two endpoints is queried against this pool,
the query returns a pool member minimizing the squared distance, and the
endpoint is replaced by that member exactly when its distance is below
`tol`. -/
theorem snap_polygon_endpoints_spec (h : HUCs) (rivers : List Tree) (tol : Q)
    (hne : riverEndCoords rivers ≠ []) :
    (∀ p ∈ specPhase1Coords rivers, p ∈ riverEndCoords rivers) ∧
    (∀ k, k < h.segments.length →
      ∃ i0 d0 i1 d1,
        nearestIdx (riverEndCoords rivers) (segFirst (h.segments.getD k [])) = some (i0, d0) ∧
        nearestIdx (riverEndCoords rivers) (segLast (h.segments.getD k [])) = some (i1, d1) ∧
        i0 < (riverEndCoords rivers).length ∧
        i1 < (riverEndCoords rivers).length ∧
        d0 = distSq ((riverEndCoords rivers).getD i0 (0, 0)) (segFirst (h.segments.getD k [])) ∧
        d1 = distSq ((riverEndCoords rivers).getD i1 (0, 0)) (segLast (h.segments.getD k [])) ∧
        (∀ q ∈ riverEndCoords rivers,
          d0.val ≤ (distSq q (segFirst (h.segments.getD k []))).val) ∧
        (∀ q ∈ riverEndCoords rivers,
          d1.val ≤ (distSq q (segLast (h.segments.getD k []))).val) ∧
        (snap_polygon_endpoints h rivers tol).segments.getD k [] =
          (if Q.blt d1 (tol * tol) = true then
            setLast (if Q.blt d0 (tol * tol) = true then
              setFirst (h.segments.getD k []) ((riverEndCoords rivers).getD i0 (0, 0))
              else h.segments.getD k [])
              ((riverEndCoords rivers).getD i1 (0, 0))
           else (if Q.blt d0 (tol * tol) = true then
              setFirst (h.segments.getD k []) ((riverEndCoords rivers).getD i0 (0, 0))
              else h.segments.getD k []))) := by
  constructor
  · intro p hp
    rw [specPhase1Coords, List.mem_append] at hp
    rw [riverEndCoords, List.mem_append]
    rcases hp with hp | hp
    · left
      rw [List.mem_map] at hp
      obtain ⟨t, ht, hpt⟩ := hp
      rw [List.mem_flatMap]
      refine ⟨t, ht, ?_⟩
      cases t with
      | node sg cs =>
        rw [Tree.dfs_node, List.map_cons, ← hpt]
        exact List.mem_cons_self _ _
    · right
      exact hp
  · intro k hk
    obtain ⟨i0, d0, hq0, hi0, hd0, hmin0⟩ :=
      nearestIdx_spec (riverEndCoords rivers) (segFirst (h.segments.getD k [])) hne
    obtain ⟨i1, d1, hq1, hi1, hd1, hmin1⟩ :=
      nearestIdx_spec (riverEndCoords rivers) (segLast (h.segments.getD k [])) hne
    refine ⟨i0, d0, i1, d1, hq0, hq1, hi0, hi1, hd0, hd1, hmin0, hmin1, ?_⟩
    rw [snap_polygon_endpoints_segments, getD_map_of_lt _ _ _ hk _ []]
    rw [hq0, hq1]
    by_cases hb0 : Q.blt d0 (tol * tol) = true <;>
      by_cases hb1 : Q.blt d1 (tol * tol) = true <;>
      simp [hb0, hb1]

/-- Claim C2 (witness): the amended theorem applied to the concrete HUC
collection `hucC2` and tree `exampleAB`. -/
theorem snap_polygon_endpoints_spec_witness :
    riverEndCoords [exampleAB] ≠ [] ∧
    ∀ p ∈ specPhase1Coords [exampleAB], p ∈ riverEndCoords [exampleAB] :=
  ⟨by decide, (snap_polygon_endpoints_spec hucC2 [exampleAB] (Q.mk 1 10) (by decide)).1⟩

/-- `Q.floor` computes the floor of the represented value. -/
theorem Q.floor_val (x : Q) : Q.floor x = ⌊x.val⌋ := by
  have hd : (0 : ℤ) < ((x.d : ℕ) : ℤ) := by exact_mod_cast x.d.pos
  have hdQ : (0 : ℚ) < ((x.d : ℕ) : ℚ) := Q.dpos x
  rw [Q.floor, Q.val, Int.fdiv_eq_ediv _ hd.le]
  have hmod := Int.emod_add_ediv x.n ((x.d : ℕ) : ℤ)
  have h0 : 0 ≤ x.n % ((x.d : ℕ) : ℤ) := Int.emod_nonneg x.n hd.ne.symm
  have h1 := Int.emod_lt_of_pos x.n hd
  have hq : ((x.n % ((x.d : ℕ) : ℤ) : ℤ) : ℚ) +
      ((x.d : ℕ) : ℚ) * ((x.n / ((x.d : ℕ) : ℤ) : ℤ) : ℚ) = ((x.n : ℤ) : ℚ) := by
    exact_mod_cast hmod
  have h0' : (0 : ℚ) ≤ ((x.n % ((x.d : ℕ) : ℤ) : ℤ) : ℚ) := by exact_mod_cast h0
  have h1' : ((x.n % ((x.d : ℕ) : ℤ) : ℤ) : ℚ) < ((x.d : ℕ) : ℚ) := by exact_mod_cast h1
  symm
  rw [Int.floor_eq_iff]
  constructor
  · rw [le_div_iff hdQ]
    push_cast at hq ⊢
    linarith
  · rw [div_lt_iff hdQ]
    push_cast at hq ⊢
    linarith

/-- `Q.ceil` computes the ceiling of the represented value. -/
theorem Q.ceil_val (x : Q) : Q.ceil x = ⌈x.val⌉ := by
  have h := Q.floor_val ⟨-x.n, x.d⟩
  rw [Q.floor] at h
  rw [show Q.val ⟨-x.n, x.d⟩ = -x.val by rw [Q.val_mk, Q.val]; push_cast; ring] at h
  rw [Int.floor_neg] at h
  rw [Q.ceil, h, neg_neg]

/-- Numpy indexing succeeds at in-range non-negative indices. -/
theorem npGet_isSome {α : Type} (l : List α) (i : ℤ) (h0 : 0 ≤ i)
    (hl : i < l.length) : (npGet l i).isSome = true := by
  rw [npGet, if_pos h0]
  rw [List.get?_eq_getElem?, List.getElem?_eq_getElem (by omega)]
  rfl

/-- Two-dimensional numpy indexing succeeds at in-range indices. -/
theorem npGet2_isSome (raster : List (List Q)) (i j : ℤ) (h0 : 0 ≤ i)
    (hi : i < raster.length) (hj0 : 0 ≤ j)
    (hj : ∀ row ∈ raster, j < row.length) :
    (npGet2 raster i j).isSome = true := by
  rw [npGet2]
  obtain ⟨row, hrow⟩ := Option.isSome_iff_exists.mp (npGet_isSome raster i h0 hi)
  rw [hrow]
  have hmem : row ∈ raster := by
    rw [npGet, if_pos h0, List.get?_eq_getElem?] at hrow
    exact List.getElem?_mem hrow
  simpa using npGet_isSome row j hj0 (hj row hmem)

/-- `mapM` over `Option` succeeds when every element lookup succeeds. -/
theorem mapM_isSome {α β : Type} (f : α → Option β) :
    ∀ (l : List α) (acc : List β), (∀ a ∈ l, (f a).isSome = true) →
      (List.mapM.loop f l acc).isSome = true := by
  intro l
  induction l with
  | nil => intro acc h; rw [List.mapM.loop]; rfl
  | cons a l ih =>
    intro acc h
    rw [List.mapM.loop]
    obtain ⟨b, hb⟩ := Option.isSome_iff_exists.mp (h a (List.mem_cons_self a l))
    rw [hb]
    exact ih (b :: acc) fun x hx => h x (List.mem_cons_of_mem a hx)

/-- `10^-k` is positive. -/
theorem qSmall_val_pos (k : ℕ) : 0 < (qSmall k).val := by
  rw [qSmall, Q.val_mk]
  positivity

/-- The bilinear `eps = 1e-10` is below one. -/
theorem qSmall_val_lt_one : (qSmall 10).val < 1 := by
  rw [qSmall, Q.val_mk]
  rw [show (((10 ^ 10 : ℕ+) : ℕ) : ℚ) = ((10 : ℕ) : ℚ) ^ 10 by
    rw [PNat.pow_coe]; push_cast; ring]
  norm_num

/-- The source's clamp lands strictly inside `(0, dim - 1)` whenever the
dimension is at least two. -/
theorem clamp_bounds (dim : ℕ) (hdim : 2 ≤ dim) (z : Q) :
    0 < (Q.qmax (qSmall 10) (Q.qmin ((dim : Q) - 1 - qSmall 10) z)).val ∧
    (Q.qmax (qSmall 10) (Q.qmin ((dim : Q) - 1 - qSmall 10) z)).val < (dim : ℚ) - 1 := by
  have heps0 := qSmall_val_pos 10
  have heps1 := qSmall_val_lt_one
  rw [Q.val_qmax, Q.val_qmin]
  have hdim' : (2 : ℚ) ≤ (dim : ℚ) := by exact_mod_cast hdim
  have hsub : ((dim : Q) - 1 - qSmall 10).val = (dim : ℚ) - 1 - (qSmall 10).val := by
    rw [Q.val_sub, Q.val_sub, Q.val_natCast, Q.val_ofNat]
    norm_num
  rw [hsub]
  constructor
  · exact lt_max_of_lt_left heps0
  · apply max_lt
    · linarith
    · have := min_le_left ((dim : ℚ) - 1 - (qSmall 10).val) z.val
      linarith

/-- The bilinear interpolation of one point never reads out of bounds on a
rectangular raster with both dimensions at least two. -/
theorem bilinearOne_isSome (inv : Pt → Q × Q) (height width : ℕ)
    (raster : List (List Q)) (p : Pt) (hh : 2 ≤ height) (hw : 2 ≤ width)
    (hlen : raster.length = height) (hrow : ∀ row ∈ raster, row.length = width) :
    (bilinearOne inv height width raster p).isSome = true := by
  obtain ⟨hi0, hi1⟩ := clamp_bounds height hh ((inv p).2 - (1 : Q) / 2)
  obtain ⟨hj0, hj1⟩ := clamp_bounds width hw ((inv p).1 - (1 : Q) / 2)
  simp only [bilinearOne]
  set i : Q := Q.qmax (qSmall 10)
    (Q.qmin ((height : Q) - 1 - qSmall 10) ((inv p).2 - (1 : Q) / 2)) with hidef
  set j : Q := Q.qmax (qSmall 10)
    (Q.qmin ((width : Q) - 1 - qSmall 10) ((inv p).1 - (1 : Q) / 2)) with hjdef
  have hfi0 : 0 ≤ Q.floor i := by
    rw [Q.floor_val]
    exact Int.le_floor.mpr (by exact_mod_cast hi0.le)
  have hci0 : 0 ≤ Q.ceil i := by
    rw [Q.ceil_val]
    calc (0 : ℤ) ≤ ⌊i.val⌋ := by rw [← Q.floor_val]; exact hfi0
      _ ≤ ⌈i.val⌉ := Int.floor_le_ceil _
  have hfiL : Q.floor i < (raster.length : ℤ) := by
    rw [Q.floor_val, hlen]
    apply Int.floor_lt.mpr
    push_cast
    linarith
  have hciL : Q.ceil i < (raster.length : ℤ) := by
    rw [Q.ceil_val, hlen]
    have : ⌈i.val⌉ ≤ (height : ℤ) - 1 := Int.ceil_le.mpr (by push_cast; linarith)
    omega
  have hfj0 : 0 ≤ Q.floor j := by
    rw [Q.floor_val]
    exact Int.le_floor.mpr (by exact_mod_cast hj0.le)
  have hcj0 : 0 ≤ Q.ceil j := by
    rw [Q.ceil_val]
    calc (0 : ℤ) ≤ ⌊j.val⌋ := by rw [← Q.floor_val]; exact hfj0
      _ ≤ ⌈j.val⌉ := Int.floor_le_ceil _
  have hfjL : ∀ row ∈ raster, Q.floor j < (row.length : ℤ) := by
    intro row hm
    rw [Q.floor_val, hrow row hm]
    apply Int.floor_lt.mpr
    push_cast
    linarith
  have hcjL : ∀ row ∈ raster, Q.ceil j < (row.length : ℤ) := by
    intro row hm
    rw [Q.ceil_val, hrow row hm]
    have : ⌈j.val⌉ ≤ (width : ℤ) - 1 := Int.ceil_le.mpr (by push_cast; linarith)
    omega
  obtain ⟨v00, h00⟩ := Option.isSome_iff_exists.mp
    (npGet2_isSome raster (Q.floor i) (Q.floor j) hfi0 hfiL hfj0 hfjL)
  obtain ⟨v01, h01⟩ := Option.isSome_iff_exists.mp
    (npGet2_isSome raster (Q.floor i) (Q.ceil j) hfi0 hfiL hcj0 hcjL)
  obtain ⟨v10, h10⟩ := Option.isSome_iff_exists.mp
    (npGet2_isSome raster (Q.ceil i) (Q.floor j) hci0 hciL hfj0 hfjL)
  obtain ⟨v11, h11⟩ := Option.isSome_iff_exists.mp
    (npGet2_isSome raster (Q.ceil i) (Q.ceil j) hci0 hciL hcj0 hcjL)
  rw [h00, h01, h10, h11]
  rfl

/-! ## Claim C9 -/

/-- Claim C9 (counterexample): the `nearest` mode performs no clamping — a
point whose row index lands outside the raster raises (`none`) where the
bilinear mode on the same point succeeds; and the bilinear lower clamp bound
is `eps = 1e-10`, not the claim's `0.5 * eps`: on a point clamped at the
lower edge the two clamps give interpolated values that differ. -/
theorem values_from_raster_nearest_out_of_range :
    values_from_raster (fun p => p) (fun p => p) 2 2 [[1, 2], [3, 4]]
      .nearest [(0, 5)] = none ∧
    (values_from_raster (fun p => p) (fun p => p) 2 2 [[1, 2], [3, 4]]
      .bilinear [(0, 5)]).isSome = true ∧
    ((bilinearOne (fun p => p) 2 2 [[1, 2], [3, 4]] (-1, -1)).bind fun v1 =>
      (bilinearOneSpecClamp (fun p => p) 2 2 [[1, 2], [3, 4]] (-1, -1)).map fun v2 =>
        Q.beq v1 v2) = some false := by
  decide

/-- Claim C9 (amended): on a rectangular raster with both dimensions at
least two, the `piecewise bilinear` mode clamps the centered fractional pixel
coordinates to `[eps, dimension - 1 - eps]` with `eps = 1e-10` and therefore
never reads out of bounds, for every input point; the `nearest` mode performs
plain unclamped lookups of the floored inverse-transformed coordinates, which
fail on out-of-range pixels. -/
theorem values_from_raster_clamp (warp : Pt → Pt) (inv : Pt → Q × Q)
    (height width : ℕ) (raster : List (List Q)) (points : List Pt)
    (hh : 2 ≤ height) (hw : 2 ≤ width) (hlen : raster.length = height)
    (hrow : ∀ row ∈ raster, row.length = width) :
    (values_from_raster warp inv height width raster .bilinear points).isSome = true ∧
    values_from_raster warp inv height width raster .nearest points =
      points.mapM fun p =>
        npGet2 raster (Q.floor (inv (warp p)).2) (Q.floor (inv (warp p)).1) := by
  constructor
  · rw [values_from_raster, valuesBilinear, List.mapM]
    exact mapM_isSome _ points []
      fun p _ => bilinearOne_isSome inv height width raster (warp p) hh hw hlen hrow
  · rfl

/-- Claim C9 (witness): the amended theorem applied to a concrete 2x2 raster
and out-of-range sample points. -/
theorem values_from_raster_clamp_witness :
    (values_from_raster (fun p => p) (fun p => p) 2 2 [[1, 2], [3, 4]]
      .bilinear [(0, 5), (7, -3)]).isSome = true :=
  (values_from_raster_clamp (fun p => p) (fun p => p) 2 2 [[1, 2], [3, 4]]
    [(0, 5), (7, -3)] (by decide) (by decide) (by decide) (by decide)).1

/-- The arclength sort produces a list sorted by the projection key order. -/
theorem sortFlagged_sorted (seg : Seg) (l : List Flagged) :
    (sortFlagged seg l).Pairwise (keyLe seg) := by
  rw [sortFlagged]
  exact List.sorted_insertionSort (keyLe seg) l

/-- The arclength sort permutes its input (no vertex gained or lost). -/
theorem sortFlagged_perm (seg : Seg) (l : List Flagged) :
    (sortFlagged seg l).Perm l := by
  rw [sortFlagged]
  exact List.perm_insertionSort (keyLe seg) l

/-- The deduplication fold keeps a sublist of the entries in which no kept
entry is within 1e-5 of an earlier kept one, and every input entry is either
kept or within 1e-5 of a kept entry. -/
theorem dedup_invariant :
    ∀ (entries acc kept : List AddEntry),
      entries.foldlM dedupStep acc = some kept →
      (∃ extra, kept = acc ++ extra ∧ extra.Sublist entries) ∧
      (acc.Pairwise (fun a b => closePt b.coord a.coord (qSmall 5) = false) →
        kept.Pairwise (fun a b => closePt b.coord a.coord (qSmall 5) = false)) ∧
      (∀ e ∈ entries, ∃ k ∈ kept, e = k ∨ closePt e.coord k.coord (qSmall 5) = true) := by
  intro entries
  induction entries with
  | nil =>
    intro acc kept h
    rw [List.foldlM_nil] at h
    cases h
    exact ⟨⟨[], by simp, List.Sublist.refl _⟩, fun hp => hp, by simp⟩
  | cons e es ih =>
    intro acc kept h
    rw [List.foldlM_cons] at h
    rcases hstep : dedupStep acc e with _ | acc'
    · rw [hstep] at h
      cases h
    · rw [hstep] at h
      obtain ⟨⟨extra, hk, hsub⟩, hpair, hcov⟩ := ih acc' kept h
      rw [dedupStep] at hstep
      rcases hfind : acc.find? (fun p2 => closePt e.coord p2.coord (qSmall 5)) with _ | p2
      · -- kept the new entry
        rw [hfind] at hstep
        cases hstep
        refine ⟨⟨e :: extra, by rw [hk]; simp, List.Sublist.cons₂ e hsub⟩, ?_, ?_⟩
        · intro hp
          apply hpair
          rw [List.pairwise_append]
          refine ⟨hp, by simp, ?_⟩
          intro a ha b hb
          rw [List.mem_singleton] at hb
          subst hb
          have := List.find?_eq_none.mp hfind a ha
          simpa using this
        · intro x hx
          rcases List.mem_cons.mp hx with hx | hx
          · subst hx
            refine ⟨x, ?_, Or.inl rfl⟩
            rw [hk]
            simp
          · exact hcov x hx
      · -- dropped: close to an already-kept entry, same component
        rw [hfind] at hstep
        have hred : (if p2.comp = e.comp then some acc else none) = some acc' := hstep
        by_cases hcomp : p2.comp = e.comp
        · rw [if_pos hcomp] at hred
          cases hred
          refine ⟨⟨extra, hk, List.Sublist.cons e hsub⟩, hpair, ?_⟩
          intro x hx
          rcases List.mem_cons.mp hx with hx | hx
          · subst hx
            refine ⟨p2, ?_, Or.inr ?_⟩
            · rw [hk]
              exact List.mem_append_left _ (List.mem_of_find?_eq_some hfind)
            · have := List.find?_some hfind
              simpa using this
          · exact hcov x hx
        · rw [if_neg hcomp] at hred
          cases hred

/-- The enumerated breakpoint scan counts the flagged entries. -/
theorem bpFrom_length : ∀ (l : List Flagged) (n : ℕ),
    (((List.enumFrom n l).filter fun p => p.2.2).map Prod.fst).length =
      l.countP fun p => p.2 := by
  intro l
  induction l with
  | nil => intro n; rfl
  | cons x xs ih =>
    intro n
    rw [List.enumFrom_cons, List.filter_cons, List.countP_cons]
    by_cases hx : x.2 = true
    · rw [if_pos (by simpa using hx)]
      simp [ih, hx]
    · rw [if_neg (by simpa using hx)]
      simp only [Bool.not_eq_true] at hx
      simp [ih, hx]

/-- Every enumerated breakpoint position is in range and flagged. -/
theorem bpFrom_mem : ∀ (l : List Flagged) (n i : ℕ),
    i ∈ ((List.enumFrom n l).filter fun p => p.2.2).map Prod.fst →
      n ≤ i ∧ i - n < l.length ∧ (l.getD (i - n) ((0, 0), false)).2 = true := by
  intro l
  induction l with
  | nil => intro n i h; simp at h
  | cons x xs ih =>
    intro n i h
    rw [List.enumFrom_cons, List.filter_cons] at h
    by_cases hx : x.2 = true
    · rw [if_pos (by simpa using hx), List.map_cons] at h
      rcases List.mem_cons.mp h with h | h
      · subst h
        refine ⟨le_refl i, by simp, ?_⟩
        simp [hx]
      · obtain ⟨h1, h2, h3⟩ := ih (n + 1) i h
        refine ⟨by omega, by simp; omega, ?_⟩
        rw [show i - n = (i - (n + 1)) + 1 by omega]
        simpa using h3
    · rw [if_neg (by simpa using hx)] at h
      obtain ⟨h1, h2, h3⟩ := ih (n + 1) i h
      refine ⟨by omega, by simp; omega, ?_⟩
      rw [show i - n = (i - (n + 1)) + 1 by omega]
      simpa using h3

/-- The enumerated breakpoint positions are strictly increasing. -/
theorem bpFrom_pairwise : ∀ (l : List Flagged) (n : ℕ),
    (((List.enumFrom n l).filter fun p => p.2.2).map Prod.fst).Pairwise (· < ·) := by
  intro l
  induction l with
  | nil => intro n; simp
  | cons x xs ih =>
    intro n
    rw [List.enumFrom_cons, List.filter_cons]
    by_cases hx : x.2 = true
    · rw [if_pos (by simpa using hx), List.map_cons]
      rw [List.pairwise_cons]
      refine ⟨?_, ih (n + 1)⟩
      intro i hi
      have := (bpFrom_mem xs (n + 1) i hi).1
      omega
    · rw [if_neg (by simpa using hx)]
      exact ih (n + 1)

/-- No entry before the first enumerated breakpoint is flagged. -/
theorem bpFrom_head : ∀ (l : List Flagged) (n b : ℕ) (rest : List ℕ),
    ((List.enumFrom n l).filter fun p => p.2.2).map Prod.fst = b :: rest →
      n ≤ b ∧ (l.take (b - n)).countP (fun p => p.2) = 0 := by
  intro l
  induction l with
  | nil => intro n b rest h; simp at h
  | cons x xs ih =>
    intro n b rest h
    rw [List.enumFrom_cons, List.filter_cons] at h
    by_cases hx : x.2 = true
    · rw [if_pos (by simpa using hx), List.map_cons] at h
      cases h
      refine ⟨le_refl n, ?_⟩
      simp
    · rw [if_neg (by simpa using hx)] at h
      obtain ⟨h1, h2⟩ := ih (n + 1) b rest h
      refine ⟨by omega, ?_⟩
      rw [show b - n = (b - (n + 1)) + 1 by omega, List.take_succ_cons, List.countP_cons]
      simp only [Bool.not_eq_true] at hx
      simp [h2, hx]

/-- There are as many breakpoint indices as flagged entries. -/
theorem breakpointInds_length (l : List Flagged) :
    (breakpointInds l).length = l.countP fun p => p.2 :=
  bpFrom_length l 0

/-- Breakpoint indices are in range and point at flagged entries. -/
theorem breakpointInds_mem (l : List Flagged) (i : ℕ) (h : i ∈ breakpointInds l) :
    i < l.length ∧ (l.getD i ((0, 0), false)).2 = true := by
  have := bpFrom_mem l 0 i h
  simpa using this.2

/-- Breakpoint indices are strictly increasing. -/
theorem breakpointInds_pairwise (l : List Flagged) :
    (breakpointInds l).Pairwise (· < ·) :=
  bpFrom_pairwise l 0

/-- No entry before the first breakpoint is flagged. -/
theorem breakpointInds_head (l : List Flagged) (b : ℕ) (rest : List ℕ)
    (h : breakpointInds l = b :: rest) :
    (l.take b).countP (fun p => p.2) = 0 := by
  have := bpFrom_head l 0 b rest h
  simpa using this.2

/-- Slicing yields one segment per breakpoint plus the final remainder. -/
theorem slicesAux_length : ∀ (inds : List ℕ) (l : List Flagged) (s : ℕ) (segs : List Seg),
    slicesAux l s inds = some segs → segs.length = inds.length + 1 := by
  intro inds
  induction inds with
  | nil =>
    intro l s segs h
    rw [slicesAux] at h
    by_cases hs : s < l.length - 1
    · rw [if_pos hs] at h
      cases h
      rfl
    · rw [if_neg hs] at h
      cases h
  | cons ie rest ih =>
    intro l s segs h
    rw [slicesAux] at h
    by_cases hie : ie = 0
    · rw [if_pos hie] at h
      cases h
    · rw [if_neg hie] at h
      rcases hrec : slicesAux l ie rest with _ | segs'
      · rw [hrec] at h
        cases h
      · rw [hrec] at h
        cases h
        have := ih l ie segs' hrec
        simp [this]

/-- The first slice starts at the slice window's start coordinate. -/
theorem slicesAux_head : ∀ (inds : List ℕ) (l : List Flagged) (s : ℕ) (segs : List Seg),
    slicesAux l s inds = some segs → s < l.length →
      segs ≠ [] ∧ segFirst (segs.headD []) = (l.getD s ((0, 0), false)).1 := by
  intro inds l s segs h hs
  have hdropne : l.drop s ≠ [] := by
    intro hc
    have := List.length_drop s l ▸ congrArg List.length hc
    simp at this
    omega
  have hdrop : l.drop s = l[s] :: l.drop (s + 1) := List.drop_eq_getElem_cons hs
  cases inds with
  | nil =>
    rw [slicesAux] at h
    by_cases hlt : s < l.length - 1
    · rw [if_pos hlt] at h
      cases h
      refine ⟨by simp, ?_⟩
      rw [List.headD_cons, hdrop]
      rw [List.map_cons, segFirst, List.headD_cons, List.getD_eq_getElem _ _ hs]
    · rw [if_neg hlt] at h
      cases h
  | cons ie rest =>
    rw [slicesAux] at h
    by_cases hie : ie = 0
    · rw [if_pos hie] at h
      cases h
    · rw [if_neg hie] at h
      rcases hrec : slicesAux l ie rest with _ | segs'
      · rw [hrec] at h
        cases h
      · rw [hrec] at h
        cases h
        refine ⟨by simp, ?_⟩
        rw [List.headD_cons]
        rw [hdrop, List.take_succ_cons, List.map_cons, segFirst, List.headD_cons,
          List.getD_eq_getElem _ _ hs]

/-- Dropping a strict prefix keeps the last element. -/
theorem getLast?_drop_of_lt {α : Type} (l : List α) (s : ℕ) (hs : s < l.length) :
    (l.drop s).getLast? = l.getLast? := by
  have hne : l.drop s ≠ [] := by
    intro hc
    have := congrArg List.length hc
    simp at this
    omega
  conv_rhs => rw [← List.take_append_drop s l]
  rw [List.getLast?_append]
  rcases hx : (l.drop s).getLast? with _ | a
  · exact absurd (List.getLast?_eq_none_iff.mp hx) hne
  · rfl

/-- The coordinate tail of a dropped flagged list ends at the original last
coordinate. -/
theorem segLast_drop_map (l : List Flagged) (s : ℕ) (hs : s < l.length) :
    segLast ((l.drop s).map Prod.fst) = (l.getLastD ((0, 0), false)).1 := by
  have hlne : l ≠ [] := by
    intro hc
    subst hc
    simp at hs
  rw [segLast, List.getLastD_eq_getLast?, List.getLast?_map, getLast?_drop_of_lt l s hs,
    List.getLastD_eq_getLast?]
  rcases hx : l.getLast? with _ | a
  · exact absurd (List.getLast?_eq_none_iff.mp hx) hlne
  · rfl

/-- The last slice ends at the flagged list's last coordinate. -/
theorem slicesAux_last : ∀ (inds : List ℕ) (l : List Flagged) (s : ℕ) (segs : List Seg),
    slicesAux l s inds = some segs → (∀ i ∈ inds, i < l.length) → s < l.length →
      segLast (segs.getLastD []) = (l.getLastD ((0, 0), false)).1 := by
  intro inds
  induction inds with
  | nil =>
    intro l s segs h hin hs
    rw [slicesAux] at h
    by_cases hlt : s < l.length - 1
    · rw [if_pos hlt] at h
      cases h
      rw [show [(l.drop s).map Prod.fst].getLastD [] = (l.drop s).map Prod.fst from rfl]
      exact segLast_drop_map l s hs
    · rw [if_neg hlt] at h
      cases h
  | cons ie rest ih =>
    intro l s segs h hin hs
    rw [slicesAux] at h
    by_cases hie : ie = 0
    · rw [if_pos hie] at h
      cases h
    · rw [if_neg hie] at h
      rcases hrec : slicesAux l ie rest with _ | segs'
      · rw [hrec] at h
        cases h
      · rw [hrec] at h
        cases h
        have hlen := slicesAux_length rest l ie segs' hrec
        have hne : segs' ≠ [] := by
          intro hc
          rw [hc] at hlen
          simp at hlen
        rw [show (((l.drop s).take (ie - s + 1)).map Prod.fst :: segs').getLastD [] =
          segs'.getLastD [] from by
            rcases segs' with _ | ⟨a, as⟩
            · exact absurd rfl hne
            · simp]
        exact ih l ie segs' hrec (fun i hi => hin i (List.mem_cons_of_mem ie hi))
          (hin ie (List.mem_cons_self ie rest))

/-- Every coordinate of the flagged list from the window start onward lands
in some slice. -/
theorem slicesAux_cover : ∀ (inds : List ℕ) (l : List Flagged) (s : ℕ) (segs : List Seg),
    slicesAux l s inds = some segs →
    List.Pairwise (· < ·) inds →
    (∀ i ∈ inds, i < l.length) →
    ∀ j, s ≤ j → j < l.length →
      ∃ sl ∈ segs, (l.getD j ((0, 0), false)).1 ∈ sl := by
  intro inds
  induction inds with
  | nil =>
    intro l s segs h _ _ j hj hjl
    rw [slicesAux] at h
    by_cases hlt : s < l.length - 1
    · rw [if_pos hlt] at h
      cases h
      refine ⟨(l.drop s).map Prod.fst, List.mem_singleton.mpr rfl, ?_⟩
      have hb : j - s < (l.drop s).length := by simp; omega
      have : (l.drop s)[j - s] = l[j] := by
        rw [List.getElem_drop]
        congr 1
        omega
      rw [List.getD_eq_getElem _ _ hjl, ← this]
      exact List.mem_map_of_mem Prod.fst (List.getElem_mem hb)
    · rw [if_neg hlt] at h
      cases h
  | cons ie rest ih =>
    intro l s segs h hpw hin j hj hjl
    rw [slicesAux] at h
    by_cases hie : ie = 0
    · rw [if_pos hie] at h
      cases h
    · rw [if_neg hie] at h
      rcases hrec : slicesAux l ie rest with _ | segs'
      · rw [hrec] at h
        cases h
      · rw [hrec] at h
        cases h
        by_cases hjie : j ≤ ie
        · refine ⟨((l.drop s).take (ie - s + 1)).map Prod.fst, List.mem_cons_self _ _, ?_⟩
          have hb1 : j - s < (l.drop s).length := by simp; omega
          have hb : j - s < ((l.drop s).take (ie - s + 1)).length := by
            rw [List.length_take]
            refine lt_min (by omega) hb1
          have h1 : ((l.drop s).take (ie - s + 1))[j - s] = (l.drop s)[j - s] :=
            List.getElem_take _
          have h2 : (l.drop s)[j - s] = l[j] := by
            rw [List.getElem_drop]
            congr 1
            omega
          rw [List.getD_eq_getElem _ _ hjl, ← h2, ← h1]
          exact List.mem_map_of_mem Prod.fst (List.getElem_mem hb)
        · obtain ⟨sl, hsl, hm⟩ := ih l ie segs' hrec (List.Pairwise.of_cons hpw)
            (fun i hi => hin i (List.mem_cons_of_mem ie hi)) j (by omega) hjl
          exact ⟨sl, List.mem_cons_of_mem _ hsl, hm⟩

/-- Clearing the last flag only rewrites the final entry. -/
theorem clearLastFlag_concat : ∀ (l : List Flagged) (x : Flagged),
    clearLastFlag (l ++ [x]) = l ++ [(x.1, false)]
  | [], x => rfl
  | [a], x => rfl
  | a :: b :: l, x => by
    rw [List.cons_append, List.cons_append, clearLastFlag, ← List.cons_append,
      clearLastFlag_concat (b :: l) x]
    simp

/-- Clearing both end flags on an explicitly decomposed list. -/
theorem clearEndFlags_shape (x y : Flagged) (M : List Flagged) :
    clearEndFlags (x :: (M ++ [y])) = (x.1, false) :: (M ++ [(y.1, false)]) := by
  rw [clearEndFlags, show x :: (M ++ [y]) = (x :: M) ++ [y] by simp, clearLastFlag_concat]
  rfl

/-- The flagged insertion input has exactly one flag per insertion point. -/
theorem countP_flag_input (seg : Seg) (pts : List Pt) :
    ((seg.map fun c => (c, false)) ++ pts.map fun p => (p, true)).countP
      (fun p => p.2) = pts.length := by
  rw [List.countP_append, List.countP_map, List.countP_map]
  rw [List.countP_eq_zero.mpr (fun a _ => by simp [Function.comp]),
    show List.countP ((fun (p : Flagged) => p.2) ∘ fun p => (p, true)) pts = pts.length from
      List.countP_eq_length.mpr (fun a _ => rfl)]
  omega

/-- A non-loop segment is cut into one more piece than it has insertion
points. -/
theorem insertPoints_length_nonloop (seg : Seg) (pts : List Pt) (segs : List Seg)
    (hl : isLoopSeg seg = false) (h : insertPoints seg pts = some segs) :
    segs.length = pts.length + 1 := by
  rw [insertPoints, hl] at h
  simp only [Bool.not_false, if_true] at h
  rw [buildSegs] at h
  have hlen := slicesAux_length _ _ _ _ h
  rw [breakpointInds_length,
    (sortFlagged_perm seg _).countP_eq] at hlen
  rw [countP_flag_input] at hlen
  exact hlen

/-- A loop segment is cut into exactly one piece per insertion point — the
rotated seam is not treated as an extra cut — and the pieces close the ring
at the rotation pivot. -/
theorem insertPoints_loop (seg : Seg) (pts : List Pt) (segs : List Seg)
    (hl : isLoopSeg seg = true) (h : insertPoints seg pts = some segs) :
    segs.length = pts.length ∧
    segFirst (segs.headD []) = segLast (segs.getLastD []) := by
  rw [insertPoints, hl] at h
  simp only [Bool.not_true, Bool.false_eq_true, if_false] at h
  set srt := sortFlagged seg
    ((seg.dropLast.map fun c => (c, false)) ++ pts.map fun p => (p, true)) with hsrt
  clear_value srt
  rcases hbp : breakpointInds srt with _ | ⟨b0, rest⟩
  · rw [hbp] at h
    cases h
  · rw [hbp] at h
    replace h : buildSegs (clearEndFlags (srt.drop b0 ++ srt.take (b0 + 1))) = some segs := h
    obtain ⟨hb0lt, hb0flag⟩ := breakpointInds_mem srt b0
      (by rw [hbp]; exact List.mem_cons_self _ _)
    rw [List.getD_eq_getElem _ _ hb0lt] at hb0flag
    have hdrop : srt.drop b0 = srt[b0] :: srt.drop (b0 + 1) := List.drop_eq_getElem_cons hb0lt
    have htake : srt.take (b0 + 1) = srt.take b0 ++ [srt[b0]] := by
      rw [← List.take_concat_get srt b0 hb0lt, List.concat_eq_append]
    have hL0 : srt.drop b0 ++ srt.take (b0 + 1) =
        srt[b0] :: ((srt.drop (b0 + 1) ++ srt.take b0) ++ [srt[b0]]) := by
      rw [hdrop, htake, List.cons_append, ← List.append_assoc]
    rw [hL0, clearEndFlags_shape] at h
    have htake0 : (srt.take b0).countP (fun p => p.2) = 0 :=
      breakpointInds_head srt b0 rest hbp
    have hsplit : srt.countP (fun p => p.2) =
        (srt.take b0).countP (fun p => p.2) + 1 + (srt.drop (b0 + 1)).countP (fun p => p.2) := by
      conv_lhs => rw [← List.take_append_drop b0 srt]
      rw [List.countP_append, hdrop, List.countP_cons]
      simp [hb0flag]
      omega
    have hsrtcount : srt.countP (fun p => p.2) = pts.length := by
      rw [hsrt, (sortFlagged_perm _ _).countP_eq, countP_flag_input]
    have hLcount : (((srt[b0]).1, false) ::
        ((srt.drop (b0 + 1) ++ srt.take b0) ++ [((srt[b0]).1, false)])).countP
          (fun p => p.2) = pts.length - 1 := by
      rw [List.countP_cons, List.countP_append, List.countP_append, List.countP_cons]
      simp only [List.countP_nil, Bool.false_eq_true, if_false]
      rw [htake0, hsrtcount] at hsplit
      rw [htake0, hsplit]
      simp
    rw [buildSegs] at h
    have hlen := slicesAux_length _ _ _ _ h
    rw [breakpointInds_length, hLcount] at hlen
    have hpts1 : 1 ≤ pts.length := by
      have := breakpointInds_length srt
      rw [hbp, hsrtcount] at this
      simp at this
      omega
    constructor
    · omega
    · have h0L : 0 < (((srt[b0]).1, false) ::
          ((srt.drop (b0 + 1) ++ srt.take b0) ++ [((srt[b0]).1, false)])).length := by
        simp
      obtain ⟨-, hhead⟩ := slicesAux_head _ _ _ _ h h0L
      have hlast := slicesAux_last _ _ _ _ h
        (fun i hi => (breakpointInds_mem _ i hi).1) h0L
      rw [hhead, hlast]
      rw [List.getD_cons_zero, List.getLastD_cons, List.getLastD_concat]

/-- Every insertion point appears verbatim as a coordinate of some output
piece. -/
theorem insertPoints_mem (seg : Seg) (pts : List Pt) (segs : List Seg)
    (h : insertPoints seg pts = some segs) :
    ∀ p ∈ pts, ∃ sl ∈ segs, p ∈ sl := by
  intro p hp
  rw [insertPoints] at h
  by_cases hl : isLoopSeg seg = true
  · rw [hl] at h
    simp only [Bool.not_true, Bool.false_eq_true, if_false] at h
    set srt := sortFlagged seg
      ((seg.dropLast.map fun c => (c, false)) ++ pts.map fun p => (p, true)) with hsrt
    rcases hbp : breakpointInds srt with _ | ⟨b0, rest⟩
    · rw [hbp] at h
      cases h
    · rw [hbp] at h
      replace h : buildSegs (clearEndFlags (srt.drop b0 ++ srt.take (b0 + 1))) = some segs := h
      obtain ⟨hb0lt, -⟩ := breakpointInds_mem srt b0
        (by rw [hbp]; exact List.mem_cons_self _ _)
      have hdrop : srt.drop b0 = srt[b0] :: srt.drop (b0 + 1) := List.drop_eq_getElem_cons hb0lt
      have htake : srt.take (b0 + 1) = srt.take b0 ++ [srt[b0]] := by
        rw [← List.take_concat_get srt b0 hb0lt, List.concat_eq_append]
      have hL0 : srt.drop b0 ++ srt.take (b0 + 1) =
          srt[b0] :: ((srt.drop (b0 + 1) ++ srt.take b0) ++ [srt[b0]]) := by
        rw [hdrop, htake, List.cons_append, ← List.append_assoc]
      rw [hL0, clearEndFlags_shape] at h
      -- the flagged pair (p, true) is a member of the sorted list
      have hmem : (p, true) ∈ srt := by
        rw [hsrt]
        exact (sortFlagged_perm _ _).mem_iff.mpr
          (List.mem_append_right _ (List.mem_map_of_mem _ hp))
      -- hence its coordinate is a coordinate of the rotated, flag-cleared list
      have hmem2 : p ∈ (((srt[b0]).1, false) ::
          ((srt.drop (b0 + 1) ++ srt.take b0) ++ [((srt[b0]).1, false)])).map Prod.fst := by
        rcases List.mem_append.mp
          ((List.take_append_drop b0 srt) ▸ hmem) with hm | hm
        · -- in the prefix, which sits inside the rotated middle
          exact List.mem_map.mpr ⟨(p, true),
            List.mem_cons_of_mem _ (List.mem_append_left _ (List.mem_append_right _ hm)), rfl⟩
        · rw [hdrop] at hm
          rcases List.mem_cons.mp hm with hm | hm
          · exact List.mem_map.mpr ⟨((srt[b0]).1, false), List.mem_cons_self _ _,
              by rw [← hm]⟩
          · exact List.mem_map.mpr ⟨(p, true),
              List.mem_cons_of_mem _ (List.mem_append_left _ (List.mem_append_left _ hm)), rfl⟩
      obtain ⟨q, hq, hqp⟩ := List.mem_map.mp hmem2
      obtain ⟨j, hj, hjq⟩ := List.mem_iff_getElem.mp hq
      obtain ⟨sl, hsl, hm⟩ := slicesAux_cover (breakpointInds _) _ 0 segs
        (by rw [← buildSegs]; exact h) (breakpointInds_pairwise _)
        (fun i hi => (breakpointInds_mem _ i hi).1) j (Nat.zero_le j) hj
      refine ⟨sl, hsl, ?_⟩
      rw [List.getD_eq_getElem _ _ hj, hjq, hqp] at hm
      exact hm
  · rw [Bool.not_eq_true] at hl
    rw [hl] at h
    simp only [Bool.not_false, if_true] at h
    rw [buildSegs] at h
    set srt := sortFlagged seg
      ((seg.map fun c => (c, false)) ++ pts.map fun p => (p, true)) with hsrt
    have hmem : (p, true) ∈ srt := by
      rw [hsrt]
      exact (sortFlagged_perm _ _).mem_iff.mpr
        (List.mem_append_right _ (List.mem_map_of_mem _ hp))
    obtain ⟨j, hj, hjq⟩ := List.mem_iff_getElem.mp hmem
    obtain ⟨sl, hsl, hm⟩ := slicesAux_cover (breakpointInds srt) srt 0 segs h
      (breakpointInds_pairwise _) (fun i hi => (breakpointInds_mem _ i hi).1) j
      (Nat.zero_le j) hj
    refine ⟨sl, hsl, ?_⟩
    rw [List.getD_eq_getElem _ _ hj, hjq] at hm
    exact hm

/-- Reading back an in-range list update. -/
theorem getD_set_self {α : Type} (l : List α) (i : ℕ) (x : α) (d : α)
    (h : i < l.length) : (l.set i x).getD i d = x := by
  rw [List.getD_eq_getElem _ _ (by rw [List.length_set]; exact h), List.getElem_set]
  simp

/-- Applying one handle's insertions: the original handle is replaced by the
first piece, the remaining pieces are appended with fresh handles, and the
fresh handles are registered on the entry's component. -/
theorem applyGroup_spec (h : HUCs) (g : ℕ × List AddEntry) (e0 : AddEntry)
    (ds : List AddEntry) (s0 : Seg) (rest : List Seg)
    (hd : g.2.foldlM dedupStep [] = some (e0 :: ds))
    (hi : insertPoints (h.segments.getD g.1 [])
      ((e0 :: ds).map fun e => e.coord) = some (s0 :: rest))
    (hg : g.1 < h.segments.length) :
    ∃ h2, applyGroup h g = some h2 ∧
      h2.segments.getD g.1 [] = s0 ∧
      h2.segments.length = h.segments.length + rest.length ∧
      h2.segments.drop h.segments.length = rest ∧
      (∀ sl ∈ s0 :: rest, sl ∈ h2.segments) ∧
      (e0.comp.1 = true → e0.comp.2 < h.boundaries.length →
        h2.boundaries.getD e0.comp.2 [] =
          h.boundaries.getD e0.comp.2 [] ++ List.range' h.segments.length rest.length) ∧
      (e0.comp.1 = false → e0.comp.2 < h.intersections.length →
        h2.intersections.getD e0.comp.2 [] =
          h.intersections.getD e0.comp.2 [] ++ List.range' h.segments.length rest.length) := by
  have step1 : applyGroup h g =
      ((insertPoints (h.segments.getD g.1 []) ((e0 :: ds).map fun e => e.coord)).bind
        fun segs =>
          match segs, e0 :: ds with
          | a :: as, f0 :: _ =>
            if f0.comp.1 = true then
              some { segments := h.segments.set g.1 a ++ as,
                     boundaries := h.boundaries.set f0.comp.2
                       (h.boundaries.getD f0.comp.2 [] ++
                         List.range' h.segments.length as.length),
                     intersections := h.intersections, gons := h.gons }
            else
              some { segments := h.segments.set g.1 a ++ as, boundaries := h.boundaries,
                     intersections := h.intersections.set f0.comp.2
                       (h.intersections.getD f0.comp.2 [] ++
                         List.range' h.segments.length as.length),
                     gons := h.gons }
          | _, _ => none) := by
    rw [applyGroup, hd]
    rfl
  rw [hi] at step1
  have step2 : applyGroup h g =
      (if e0.comp.1 = true then
        some { segments := h.segments.set g.1 s0 ++ rest,
               boundaries := h.boundaries.set e0.comp.2
                 (h.boundaries.getD e0.comp.2 [] ++
                   List.range' h.segments.length rest.length),
               intersections := h.intersections, gons := h.gons }
      else
        some { segments := h.segments.set g.1 s0 ++ rest, boundaries := h.boundaries,
               intersections := h.intersections.set e0.comp.2
                 (h.intersections.getD e0.comp.2 [] ++
                   List.range' h.segments.length rest.length),
               gons := h.gons }) := by
    rw [step1]
    rfl
  have hsegfacts : ∀ (hs : HUCs), hs.segments = h.segments.set g.1 s0 ++ rest →
      hs.segments.getD g.1 [] = s0 ∧
      hs.segments.length = h.segments.length + rest.length ∧
      hs.segments.drop h.segments.length = rest ∧
      (∀ sl ∈ s0 :: rest, sl ∈ hs.segments) := by
    intro hs hseg
    rw [hseg]
    refine ⟨?_, by simp, ?_, ?_⟩
    · rw [List.getD_append _ _ _ _ (by rw [List.length_set]; exact hg),
        getD_set_self _ _ _ _ hg]
    · rw [show h.segments.length = (h.segments.set g.1 s0).length by rw [List.length_set],
        List.drop_left]
    · intro sl hsl
      rcases List.mem_cons.mp hsl with hsl | hsl
      · subst hsl
        refine List.mem_append_left _ ?_
        refine List.mem_iff_getElem.mpr ⟨g.1, by rw [List.length_set]; exact hg, ?_⟩
        rw [List.getElem_set]
        simp
      · exact List.mem_append_right _ hsl
  by_cases hb : e0.comp.1 = true
  · rw [if_pos hb] at step2
    obtain ⟨h1, h2, h3, h4⟩ := hsegfacts
      { segments := h.segments.set g.1 s0 ++ rest,
        boundaries := h.boundaries.set e0.comp.2
          (h.boundaries.getD e0.comp.2 [] ++ List.range' h.segments.length rest.length),
        intersections := h.intersections, gons := h.gons } rfl
    refine ⟨_, step2, h1, h2, h3, h4, ?_, ?_⟩
    · intro _ hlt
      exact getD_set_self _ _ _ _ hlt
    · intro hb'
      rw [hb] at hb'
      cases hb'
  · rw [if_neg hb] at step2
    obtain ⟨h1, h2, h3, h4⟩ := hsegfacts
      { segments := h.segments.set g.1 s0 ++ rest, boundaries := h.boundaries,
        intersections := h.intersections.set e0.comp.2
          (h.intersections.getD e0.comp.2 [] ++ List.range' h.segments.length rest.length),
        gons := h.gons } rfl
    refine ⟨_, step2, h1, h2, h3, h4, ?_, ?_⟩
    · intro hb'
      exact absurd hb' hb
    · intro _ hlt
      exact getD_set_self _ _ _ _ hlt

/-- `applyGroup` after a successful deduplication fold. -/
theorem applyGroup_unfold (h : HUCs) (g : ℕ × List AddEntry) (deduped : List AddEntry)
    (hd : g.2.foldlM dedupStep [] = some deduped) :
    applyGroup h g =
      ((insertPoints (h.segments.getD g.1 []) (deduped.map fun e => e.coord)).bind
        fun segs =>
          match segs, deduped with
          | a :: as, f0 :: _ =>
            if f0.comp.1 = true then
              some { segments := h.segments.set g.1 a ++ as,
                     boundaries := h.boundaries.set f0.comp.2
                       (h.boundaries.getD f0.comp.2 [] ++
                         List.range' h.segments.length as.length),
                     intersections := h.intersections, gons := h.gons }
            else
              some { segments := h.segments.set g.1 a ++ as, boundaries := h.boundaries,
                     intersections := h.intersections.set f0.comp.2
                       (h.intersections.getD f0.comp.2 [] ++
                         List.range' h.segments.length as.length),
                     gons := h.gons }
          | _, _ => none) := by
  rw [applyGroup, hd]
  rfl

/-- `applyGroup` fails when the deduplication fold fails. -/
theorem applyGroup_none (h : HUCs) (g : ℕ × List AddEntry)
    (hd : g.2.foldlM dedupStep [] = none) : applyGroup h g = none := by
  rw [applyGroup, hd]
  rfl

/-! ## Claim C7 -/

/-- Claim C7 (confirmed): Phase-2 insertion behaves as claimed — all new
vertices for one boundary segment are inserted in a single pass, ordered by
the arclength projection key (the sort is a sorted permutation of the flagged
input); insertion requests within 1e-5 of an already-kept one are
deduplicated to the kept representative; a non-loop segment splits into one
piece per breakpoint plus one, while a loop segment is rotated to start at
the first breakpoint, its seam is not treated as two insertion points (one
piece per insertion point) and the ring closes at the pivot; and the original
handle keeps the first piece while the remaining pieces receive the fresh
handles appended to the pool and registered with the referencing component. -/
theorem snap_endpoints_insertion :
    (∀ (seg : Seg) (l : List Flagged),
      (sortFlagged seg l).Pairwise (keyLe seg) ∧ (sortFlagged seg l).Perm l) ∧
    (∀ (entries kept : List AddEntry), entries.foldlM dedupStep [] = some kept →
      kept.Sublist entries ∧
      kept.Pairwise (fun a b => closePt b.coord a.coord (qSmall 5) = false) ∧
      ∀ e ∈ entries, ∃ k ∈ kept, e = k ∨ closePt e.coord k.coord (qSmall 5) = true) ∧
    (∀ (seg : Seg) (pts : List Pt) (segs : List Seg), insertPoints seg pts = some segs →
      (isLoopSeg seg = false → segs.length = pts.length + 1) ∧
      (isLoopSeg seg = true → segs.length = pts.length ∧
        segFirst (segs.headD []) = segLast (segs.getLastD []))) ∧
    (∀ (h : HUCs) (g : ℕ × List AddEntry) (e0 : AddEntry) (ds : List AddEntry)
       (s0 : Seg) (rest : List Seg),
      g.2.foldlM dedupStep [] = some (e0 :: ds) →
      insertPoints (h.segments.getD g.1 []) ((e0 :: ds).map fun e => e.coord) =
        some (s0 :: rest) →
      g.1 < h.segments.length →
      ∃ h2, applyGroup h g = some h2 ∧ h2.segments.getD g.1 [] = s0 ∧
        h2.segments.length = h.segments.length + rest.length ∧
        h2.segments.drop h.segments.length = rest ∧
        (e0.comp.1 = true → e0.comp.2 < h.boundaries.length →
          h2.boundaries.getD e0.comp.2 [] =
            h.boundaries.getD e0.comp.2 [] ++ List.range' h.segments.length rest.length) ∧
        (e0.comp.1 = false → e0.comp.2 < h.intersections.length →
          h2.intersections.getD e0.comp.2 [] =
            h.intersections.getD e0.comp.2 [] ++
              List.range' h.segments.length rest.length)) := by
  refine ⟨fun seg l => ⟨sortFlagged_sorted seg l, sortFlagged_perm seg l⟩, ?_, ?_, ?_⟩
  · intro entries kept hfold
    obtain ⟨⟨extra, hk, hsub⟩, hpair, hcov⟩ := dedup_invariant entries [] kept hfold
    rw [List.nil_append] at hk
    subst hk
    exact ⟨hsub, hpair List.Pairwise.nil, hcov⟩
  · intro seg pts segs hins
    exact ⟨fun hl => insertPoints_length_nonloop seg pts segs hl hins,
      fun hl => insertPoints_loop seg pts segs hl hins⟩
  · intro h g e0 ds s0 rest hd hi hg
    obtain ⟨h2, ha, hb, hc, hdr, -, hbd, hint⟩ := applyGroup_spec h g e0 ds s0 rest hd hi hg
    exact ⟨h2, ha, hb, hc, hdr, hbd, hint⟩

/-- Claim C7 (witness): the insertion of two points at `(3, 0)` and `(7, 0)`
into the bottom edge, through `applyGroup`, concretely. -/
theorem snap_endpoints_insertion_witness :
    ∃ h2, applyGroup hC7 (0, [eC7a, eC7b]) = some h2 ∧
      h2.segments.getD 0 [] = [pI 0 0, pI 3 0] ∧
      h2.segments.length = hC7.segments.length + 2 ∧
      h2.segments.drop hC7.segments.length = [[pI 3 0, pI 7 0], [pI 7 0, pI 10 0]] ∧
      (eC7a.comp.1 = true → eC7a.comp.2 < hC7.boundaries.length →
        h2.boundaries.getD eC7a.comp.2 [] =
          hC7.boundaries.getD eC7a.comp.2 [] ++ List.range' hC7.segments.length 2) ∧
      (eC7a.comp.1 = false → eC7a.comp.2 < hC7.intersections.length →
        h2.intersections.getD eC7a.comp.2 [] =
          hC7.intersections.getD eC7a.comp.2 [] ++ List.range' hC7.segments.length 2) :=
  (snap_endpoints_insertion).2.2.2 hC7 (0, [eC7a, eC7b]) eC7a [eC7b]
    [pI 0 0, pI 3 0] [[pI 3 0, pI 7 0], [pI 7 0, pI 10 0]]
    (by decide) (by decide) (by decide)

/-! ## Claim C3 -/

/-- Claim C3 (counterexample): the child reach's endpoint `(3 + 5e-6, 1e-3)`
is within `tol = 1/10` of the boundary segment before Phase 2, but after
Phase 2 its snapped coordinate `(3 + 5e-6, 0)` coincides with *no* vertex of
the resulting boundary segments: the insertion request was deduplicated (it
falls within 1e-5 of the root's request at `(3, 0)`) and only the kept
representative `(3, 0)` was inserted, leaving the snapped endpoint at
distance 5e-6 from the nearest vertex. -/
theorem snap_endpoints_not_exact :
    Q.blt (distSq (nearest_point (hC3.segments.getD 0 [])
        (segLast [(⟨600001, 200000⟩, 1), (⟨600001, 200000⟩, ⟨1, 1000⟩)]))
      (segLast [(⟨600001, 200000⟩, 1), (⟨600001, 200000⟩, ⟨1, 1000⟩)]))
      (⟨1, 10⟩ * ⟨1, 10⟩) = true ∧
    snap_endpoints t3 hC3 ⟨1, 10⟩ = some (t3out, h3out) ∧
    (h3out.segments.all fun sl => sl.all fun v =>
      !beqPt (segLast [(⟨600001, 200000⟩, ⟨1, 1⟩),
        (⟨60000100000, 20000000000⟩, ⟨0, 20000000000⟩)]) v) = true := by
  decide

/-- Claim C3 (amended): after one handle's insertions are applied, every
`to_add` entry's coordinate is either itself inserted verbatim as a vertex of
some resulting boundary segment, or lies within the 1e-5 deduplication
tolerance of a kept representative that is. -/
theorem snap_exact_vertices (h : HUCs) (g : ℕ × List AddEntry) (h2 : HUCs)
    (happ : applyGroup h g = some h2) (hg : g.1 < h.segments.length) :
    ∀ e ∈ g.2, ∃ v, (e.coord = v ∨ closePt e.coord v (qSmall 5) = true) ∧
      ∃ sl ∈ h2.segments, v ∈ sl := by
  intro e he
  rcases hd : g.2.foldlM dedupStep [] with _ | deduped
  · rw [applyGroup_none h g hd] at happ
    cases happ
  · have hunf := applyGroup_unfold h g deduped hd
    rw [hunf] at happ
    rcases hi : insertPoints (h.segments.getD g.1 []) (deduped.map fun e => e.coord)
      with _ | segs
    · rw [hi] at happ
      cases happ
    · rw [hi] at happ
      rcases segs with _ | ⟨s0, rest⟩
      · cases happ
      · rcases deduped with _ | ⟨e0, ds⟩
        · cases happ
        · obtain ⟨h2', ha', -, -, -, hmem, -, -⟩ :=
            applyGroup_spec h g e0 ds s0 rest hd hi hg
          have hh2 : h2' = h2 := by
            rw [hunf, hi] at ha'
            exact Option.some.inj (ha'.symm.trans happ)
          subst hh2
          obtain ⟨⟨extra, hk, -⟩, -, hcov⟩ := dedup_invariant g.2 [] (e0 :: ds) hd
          obtain ⟨k, hkmem, hkrel⟩ := hcov e he
          obtain ⟨sl, hsl, hvin⟩ := insertPoints_mem _ _ _ hi k.coord
            (List.mem_map_of_mem _ hkmem)
          refine ⟨k.coord, ?_, sl, hmem sl hsl, hvin⟩
          rcases hkrel with hkrel | hkrel
          · exact Or.inl (by rw [hkrel])
          · exact Or.inr hkrel

/-- Claim C3 (witness): the amended theorem applied to the concrete
two-entry group on the bottom edge, at the first entry. -/
theorem snap_exact_vertices_witness :
    ∃ v, (eC7a.coord = v ∨ closePt eC7a.coord v (qSmall 5) = true) ∧
      ∃ sl ∈ (HUCs.mk [[pI 0 0, pI 3 0], [pI 3 0, pI 7 0], [pI 7 0, pI 10 0]]
        [[0, 1, 2]] [] []).segments, v ∈ sl :=
  snap_exact_vertices hC7 (0, [eC7a, eC7b])
    (HUCs.mk [[pI 0 0, pI 3 0], [pI 3 0, pI 7 0], [pI 7 0, pI 10 0]] [[0, 1, 2]] [] [])
    (by decide) (by decide) eC7a (by decide)

/-! ## Claim C1 -/

/-- Claim C1 (counterexample): on a well-formed square and a consistent
river whose endpoint snaps exactly onto the square's corner — the final
vertex of the bottom boundary segment — `snap` neither returns `True` nor
`False`: the Phase-2 splitting hits the source's
`assert(ind_start < len(new_coords)-1)` (the breakpoint sorts to the end of
the segment) and the AssertionError escapes `snap`, modelled as `none`. -/
theorem snap_crashes :
    [rivC1].all is_consistent = true ∧ polygonsOk sqC1 = true ∧
    snap sqC1 [rivC1] ⟨1, 10⟩ (some (qSmall 9)) = none := by
  decide

/-- Claim C1 (amended): for consistent rivers and a HUC collection whose
polygons close, `snap` runs Phase 1, re-checks the ring-closure invariant
(the river-consistency re-check cannot fire, Phase 1 leaves rivers
untouched), returns `False` without repair when it fails, then runs Phase 2;
a Phase-2 assertion failure escapes as an exception (`none`), and otherwise
the returned flag is exactly the conjunction of the two re-checked
invariants. -/
theorem snap_control_flow (h : HUCs) (rivers : List Tree) (tol : Q) (tt : Option Q)
    (hc : rivers.all is_consistent = true) (hp : polygonsOk h = true)
    (hne : rivers ≠ []) :
    snap h rivers tol tt =
      (let h1 := snap_polygon_endpoints h rivers (tt.getD tol)
       if polygonsOk h1 = true then
         match snapAllTrees h1 rivers tol with
         | none => none
         | some (h2, r2) => some ((r2.all is_consistent && polygonsOk h2), h2, r2)
       else some (false, h1, rivers)) := by
  have hlen : ¬ rivers.length = 0 := fun hz => hne (List.length_eq_zero.mp hz)
  rw [snap]
  rw [if_neg (not_not_intro hc), if_neg (not_not_intro hp), if_neg hlen,
    if_neg (not_not_intro hc)]
  by_cases hq : polygonsOk (snap_polygon_endpoints h rivers (tt.getD tol)) = true
  · rw [if_neg (not_not_intro hq)]
    show _ = (if polygonsOk (snap_polygon_endpoints h rivers (tt.getD tol)) = true
      then _ else _)
    rw [if_pos hq]
    rcases snapAllTrees (snap_polygon_endpoints h rivers (tt.getD tol)) rivers tol
      with _ | ⟨h2, r2⟩
    · rfl
    · show (if ¬ r2.all is_consistent = true then some (false, h2, r2)
        else if ¬ polygonsOk h2 = true then some (false, h2, r2)
        else some (true, h2, r2)) = some (r2.all is_consistent && polygonsOk h2, h2, r2)
      by_cases hr : r2.all is_consistent = true
      · rw [if_neg (not_not_intro hr), hr]
        by_cases hp2 : polygonsOk h2 = true
        · rw [if_neg (not_not_intro hp2), hp2]
          rfl
        · rw [if_pos hp2]
          rw [Bool.not_eq_true] at hp2
          rw [hp2]
          rfl
      · rw [if_pos hr]
        rw [Bool.not_eq_true] at hr
        rw [hr]
        rfl
  · rw [if_pos hq]
    show _ = (if polygonsOk (snap_polygon_endpoints h rivers (tt.getD tol)) = true
      then _ else _)
    rw [if_neg hq]

/-- Claim C1 (witness): the amended control-flow theorem on the square and a
benign river. -/
theorem snap_control_flow_witness :
    snap sqC1 [rivB] ⟨1, 10⟩ none =
      (let h1 := snap_polygon_endpoints sqC1 [rivB] ((none : Option Q).getD ⟨1, 10⟩)
       if polygonsOk h1 = true then
         match snapAllTrees h1 [rivB] ⟨1, 10⟩ with
         | none => none
         | some (h2, r2) => some ((r2.all is_consistent && polygonsOk h2), h2, r2)
       else some (false, h1, [rivB])) :=
  snap_control_flow sqC1 [rivB] ⟨1, 10⟩ none (by decide) (by decide) (by decide)

/-! ## Claim C10 -/

/-- Claim C10 (counterexample to the claim as stated): even the empty reach
list does not return normally — the `filter_rivers_to_shape` lookup precedes
the `len(reaches) is 0` check, so the empty list also raises AttributeError
instead of being returned. -/
theorem simplify_and_prune_empty_raises :
    simplify_and_prune ⟨[], [], [], []⟩ [] 10 0 false =
      .error "AttributeError: module workflow.hydrography has no attribute filter_rivers_to_shape" := by
  rfl

/-- Claim C10 (amended): for every HUC collection and every list of reaches —
empty or not — `simplify_and_prune` raises AttributeError at its
`workflow.hydrography.filter_rivers_to_shape` call, before any filtering,
simplification or snapping; the `snap` call later in the body (which would
pass five positional arguments to the four-parameter `snap`) is unreachable. -/
theorem simplify_and_prune_always_raises (hucs : HUCs) (reaches : List Seg)
    (tol : Q) (prs : ℕ) (ci : Bool) :
    simplify_and_prune hucs reaches tol prs ci =
      .error "AttributeError: module workflow.hydrography has no attribute filter_rivers_to_shape" := by
  rfl

/-! ## Claim C5 -/

/-- Claim C5 (counterexample): `merge` does fail on a tree whose root segment
is shorter than the merge tolerance — the source evaluates
`node.parent.segment.coords[0]` for the root's children with `node.parent`
being `None`.  Root segment of length 1, tolerance 10. -/
theorem merge_short_root_fails :
    merge (.node [pI 0 0, pI 1 0] [.node [pI 9 9, pI 0 0] []]) 10 = none := by
  rw [merge, if_pos]
  rw [lengthR_pair]
  have h1 : (((distSq (pI 0 0) (pI 1 0)).val : ℚ) : ℝ) = 1 := by
    have : distSq (pI 0 0) (pI 1 0) = ⟨1, 1⟩ := by decide
    rw [this]
    norm_num [Q.val]
  rw [h1, Real.sqrt_one]
  norm_num

/-- Claim C5 (amended): `simplify` and `prune` are total and `cleanup` without
a merge tolerance never fails, but `merge` fails precisely when the root's
segment is shorter than the merge tolerance. -/
theorem cleanup_operator_failure (t : Tree) (tol : ℝ) (rivers : List Tree)
    (st : Option Q) (pt : Option ℝ) :
    ((merge t tol).isSome ↔ ¬ lengthR t.seg < tol) ∧
      (cleanup rivers st pt none).isSome := by
  constructor
  · obtain ⟨s, cs⟩ := t
    rw [merge, Tree.seg_node]
    by_cases h : lengthR s < tol
    · simp [h]
    · simp [h]
  · have hmap : ∀ (f : Tree → Option Tree), (∀ a, (f a).isSome) →
        ∀ l : List Tree, (l.mapM f).isSome := by
      intro f hf l
      have hloop : ∀ (l acc : List Tree), (List.mapM.loop f l acc).isSome := by
        intro l
        induction l with
        | nil => intro acc; rfl
        | cons a l ih =>
          intro acc
          obtain ⟨b, hb⟩ := Option.isSome_iff_exists.mp (hf a)
          rw [List.mapM.loop, hb]
          exact ih _
      exact hloop l []
    rw [cleanup.eq_def]
    apply hmap
    intro a
    rfl

/-! ## Claim C8 -/

/-- The forest-level accounting behind `prune`: pruning removes exactly the
short leaves. -/
theorem pruneForest_ms (tol : ℝ) : ∀ ts : List Tree,
    (dfsForest (pruneForest tol ts) : Multiset Seg) + shortLeafMSForest tol ts =
      (dfsForest ts : Multiset Seg)
  | [] => by simp [pruneForest, shortLeafMSForest, dfsForest_nil]
  | .node s cs :: ts => by
    have hcoe : ∀ (x : Seg) (a b : List Seg),
        (((x :: a) ++ b : List Seg) : Multiset Seg) =
          {x} + ((a : Multiset Seg) + (b : Multiset Seg)) := by
      intro x a b
      rw [List.cons_append, Multiset.coe_add, ← Multiset.cons_coe,
        ← Multiset.singleton_add]
    rw [pruneForest, shortLeafMSForest]
    by_cases h : cs = [] ∧ lengthR s < tol
    · rw [if_pos h, if_pos h]
      obtain ⟨rfl, -⟩ := h
      have hts := pruneForest_ms tol ts
      rw [dfsForest_cons, Tree.dfs_node, dfsForest_nil, hcoe, Multiset.coe_nil, ← hts]
      abel
    · rw [if_neg h, if_neg h]
      have hts := pruneForest_ms tol ts
      have hcs := pruneForest_ms tol cs
      rw [dfsForest_cons, dfsForest_cons, Tree.dfs_node, Tree.dfs_node, hcoe, hcoe,
        ← hts, ← hcs]
      abel

/-- sqrt 2 is below 2. -/
theorem sqrt_two_lt_two : Real.sqrt 2 < 2 := by
  have h := Real.sqrt_lt_sqrt (by norm_num : (0 : ℝ) ≤ 2) (by norm_num : (2 : ℝ) < 4)
  rwa [show (4 : ℝ) = 2 ^ 2 by norm_num, Real.sqrt_sq (by norm_num : (0 : ℝ) ≤ 2)] at h

/-- The example leaf `A` is shorter than 2. -/
theorem exampleA_short : lengthR [pI 0 0, pI 1 1] < 2 := by
  rw [lengthR_pair]
  have h1 : (((distSq (pI 0 0) (pI 1 1)).val : ℚ) : ℝ) = 2 := by
    have : distSq (pI 0 0) (pI 1 1) = ⟨2, 1⟩ := by decide
    rw [this]
    norm_num [Q.val]
  rw [h1]
  exact sqrt_two_lt_two

/-- Claim C8 (counterexample): pruning the two-segment example tree at
`prune_tol = 2.0` does not leave an empty forest — only the leaf `A` is
removed; the root `B` survives (the source never removes a tree's root, and
one `prune` pass is not recursive upward). -/
theorem prune_exampleAB_not_empty :
    prune exampleAB 2 = .node [pI 1 1, pI 2 2] [] ∧
      (prune exampleAB 2).dfs = [[pI 1 1, pI 2 2]] := by
  have h : prune exampleAB 2 = .node [pI 1 1, pI 2 2] [] := by
    rw [exampleAB, prune, pruneForest, if_pos ⟨rfl, exampleA_short⟩, pruneForest]
  exact ⟨h, by rw [h, Tree.dfs_node, dfsForest_nil]⟩

/-- Claim C8 (amended): forest construction on
`A = [(0,0),(1,1)]`, `B = [(1,1),(2,2)]` with `tol = 0.01` yields the single
tree with `A` a child of `B`; pruning it at 2.0 removes `A` (length √2 < 2)
but leaves the single-node tree `B` — not an empty forest; and in general one
`prune` pass removes exactly the non-root leaves shorter than the tolerance
and no other node. -/
theorem prune_spec :
    make_global_tree [[pI 0 0, pI 1 1], [pI 1 1, pI 2 2]] ((1 : Q) / 100) = [exampleAB] ∧
      prune exampleAB 2 = .node [pI 1 1, pI 2 2] [] ∧
      ∀ (t : Tree) (tol : ℝ),
        nodeMS (prune t tol) + shortLeafMSForest tol t.children = nodeMS t := by
  refine ⟨by decide, (prune_exampleAB_not_empty).1, ?_⟩
  intro t tol
  obtain ⟨s, cs⟩ := t
  rw [prune, nodeMS, nodeMS, Tree.dfs_node, Tree.dfs_node, Tree.children_node]
  have h := pruneForest_ms tol cs
  have hc : ∀ (a : List Seg), ((s :: a : List Seg) : Multiset Seg) =
      {s} + (a : Multiset Seg) := fun a => by
    rw [← Multiset.cons_coe, ← Multiset.singleton_add]
  rw [hc, hc, add_assoc, h]

/-! ## Claim C6 -/

/-- Membership in a packed child list. -/
theorem mergePack_mem {t' : Tree} {p : List Tree × List Tree} :
    t' ∈ mergePack p ↔ t' ∈ p.1 ∨ t' ∈ p.2 := by
  simp [mergePack]

/-- `consForest` unfolded on cons. -/
theorem consForest_cons (pf : Pt) (t : Tree) (ts : List Tree) :
    consForest pf (t :: ts) = (Tree.consAux t pf && consForest pf ts) := rfl

mutual

/-- Every node surviving a `merge` pass has final segment length at least the
tolerance (node case). -/
theorem mergeNode_long (tol : ℝ) (pf : Pt) (rh : Bool) (sg : Seg) (cs : List Tree) :
    (∀ t', mergeNode tol pf rh (.node sg cs) = .inl t' →
      ∀ s ∈ t'.dfs, ¬ lengthR s < tol) ∧
      (∀ gs, mergeNode tol pf rh (.node sg cs) = .inr gs →
        ∀ t' ∈ gs, ∀ s ∈ t'.dfs, ¬ lengthR s < tol) := by
  rw [mergeNode]
  by_cases hlen : lengthR (if rh then sg.dropLast ++ [pf] else sg) < tol
  · rw [if_pos hlen]
    constructor
    · intro t' h
      exact Sum.noConfusion h
    · intro gs h
      have hh := Sum.inr.inj h
      subst hh
      exact mergeSibs_long tol pf true cs
  · rw [if_neg hlen]
    constructor
    · intro t' h
      have hh := Sum.inl.inj h
      subst hh
      intro s hs
      rw [Tree.dfs_node] at hs
      rcases List.mem_cons.mp hs with rfl | hs
      · exact hlen
      · obtain ⟨u, hu, hsu⟩ := dfsForest_mem.mp hs
        exact mergeSibs_long tol _ false cs u hu s hsu
    · intro gs h
      exact Sum.noConfusion h
termination_by sizeOf cs + 1
decreasing_by
  all_goals simp_wf
  all_goals omega

/-- Every node surviving a `merge` pass has final segment length at least the
tolerance (sibling-list case). -/
theorem mergeSibs_long (tol : ℝ) (pf : Pt) (rh : Bool) (cs : List Tree) :
    ∀ t' ∈ mergePack (mergeSibs tol pf rh cs), ∀ s ∈ t'.dfs, ¬ lengthR s < tol := by
  rcases cs with _ | ⟨⟨sg, cs0⟩, ts⟩
  · intro t' ht'
    rw [mergeSibs] at ht'
    rcases mergePack_mem.mp ht' with h | h <;> cases h
  · intro t' ht'
    rw [mergeSibs] at ht'
    rcases hn : mergeNode tol pf rh (.node sg cs0) with u | gs <;> rw [hn] at ht'
    · rcases mergePack_mem.mp ht' with h | h
      · rcases List.mem_cons.mp h with rfl | h
        · exact (mergeNode_long tol pf rh sg cs0).1 t' hn
        · exact mergeSibs_long tol pf rh ts t' (mergePack_mem.mpr (.inl h))
      · exact mergeSibs_long tol pf rh ts t' (mergePack_mem.mpr (.inr h))
    · rcases mergePack_mem.mp ht' with h | h
      · exact mergeSibs_long tol pf rh ts t' (mergePack_mem.mpr (.inl h))
      · rcases List.mem_append.mp h with h | h
        · exact (mergeNode_long tol pf rh sg cs0).2 gs hn t' h
        · exact mergeSibs_long tol pf rh ts t' (mergePack_mem.mpr (.inr h))
termination_by sizeOf cs
decreasing_by
  all_goals simp_wf
  all_goals omega

end

mutual

/-- `merge` preserves the tree connectivity invariant (node case): a
surviving node's last coordinate matches `pf` and its new child list is
consistent; the re-homed children of a removed node all match `pf`. -/
theorem mergeNode_cons (tol : ℝ) (pf : Pt) (rh : Bool) (sg : Seg) (cs : List Tree) :
    (∀ s ∈ (Tree.node sg cs).dfs, 2 ≤ s.length) →
    consForest (segFirst sg) cs = true →
    (rh = false → beqPt (segLast sg) pf = true) →
    (∀ t', mergeNode tol pf rh (.node sg cs) = .inl t' → Tree.consAux t' pf = true) ∧
      (∀ gs, mergeNode tol pf rh (.node sg cs) = .inr gs →
        ∀ u ∈ gs, Tree.consAux u pf = true) := by
  intro h2 hin hlast
  have hsg2 : 2 ≤ sg.length := h2 sg (by rw [Tree.dfs_node]; exact List.mem_cons_self _ _)
  have hchild : ∀ c ∈ cs, (∀ s ∈ c.dfs, 2 ≤ s.length) ∧
      consForest (segFirst c.seg) c.children = true ∧
      beqPt (segLast c.seg) (segFirst sg) = true := by
    intro c hc
    have hca := consForest_iff.mp hin c hc
    obtain ⟨s0, cs0⟩ := c
    rw [Tree.consAux_node, Bool.and_eq_true] at hca
    refine ⟨fun s hs => h2 s ?_, by simpa using hca.2, by simpa using hca.1⟩
    rw [Tree.dfs_node]
    exact List.mem_cons_of_mem _ (dfsForest_mem.mpr ⟨_, hc, hs⟩)
  rw [mergeNode]
  by_cases hlen : lengthR (if rh then sg.dropLast ++ [pf] else sg) < tol
  · rw [if_pos hlen]
    constructor
    · intro t' h
      exact Sum.noConfusion h
    · intro gs h
      have hh := Sum.inr.inj h
      subst hh
      exact mergeSibs_cons tol pf true cs (fun c hc => (hchild c hc).1)
        (fun c hc => (hchild c hc).2.1) (fun h => by cases h)
  · rw [if_neg hlen]
    constructor
    · intro t' h
      have hh := Sum.inl.inj h
      subst hh
      rw [Tree.consAux_node, Bool.and_eq_true]
      have hfirst : segFirst (if rh then sg.dropLast ++ [pf] else sg) = segFirst sg := by
        cases rh
        · simp
        · simpa using segFirst_dropLast_append hsg2 pf
      constructor
      · cases rh
        · simpa using hlast rfl
        · simp [segLast_dropLast_append, beqPt_refl]
      · rw [hfirst]
        exact consForest_iff.mpr
          (mergeSibs_cons tol (segFirst sg) false cs (fun c hc => (hchild c hc).1)
            (fun c hc => (hchild c hc).2.1) (fun _ c hc => (hchild c hc).2.2))
    · intro gs h
      exact Sum.noConfusion h
termination_by sizeOf cs + 1
decreasing_by
  all_goals simp_wf
  all_goals omega

/-- `merge` preserves the tree connectivity invariant (sibling-list case). -/
theorem mergeSibs_cons (tol : ℝ) (pf : Pt) (rh : Bool) (cs : List Tree) :
    (∀ c ∈ cs, ∀ s ∈ c.dfs, 2 ≤ s.length) →
    (∀ c ∈ cs, consForest (segFirst c.seg) c.children = true) →
    (rh = false → ∀ c ∈ cs, beqPt (segLast c.seg) pf = true) →
    ∀ u ∈ mergePack (mergeSibs tol pf rh cs), Tree.consAux u pf = true := by
  rcases cs with _ | ⟨⟨sg, cs0⟩, ts⟩
  · intro h2 hin hlast u hu
    rw [mergeSibs] at hu
    rcases mergePack_mem.mp hu with h | h <;> cases h
  · intro h2 hin hlast u hu
    have hrec := mergeSibs_cons tol pf rh ts
      (fun c hc => h2 c (List.mem_cons_of_mem _ hc))
      (fun c hc => hin c (List.mem_cons_of_mem _ hc))
      (fun hr c hc => hlast hr c (List.mem_cons_of_mem _ hc))
    have hnode := mergeNode_cons tol pf rh sg cs0
      (h2 _ (List.mem_cons_self _ _)) (by simpa using hin _ (List.mem_cons_self _ _))
      (fun hr => by simpa using hlast hr _ (List.mem_cons_self _ _))
    rw [mergeSibs] at hu
    rcases hn : mergeNode tol pf rh (.node sg cs0) with v | gs <;> rw [hn] at hu
    · rcases mergePack_mem.mp hu with h | h
      · rcases List.mem_cons.mp h with rfl | h
        · exact hnode.1 u hn
        · exact hrec u (mergePack_mem.mpr (.inl h))
      · exact hrec u (mergePack_mem.mpr (.inr h))
    · rcases mergePack_mem.mp hu with h | h
      · exact hrec u (mergePack_mem.mpr (.inl h))
      · rcases List.mem_append.mp h with h | h
        · exact hnode.2 gs hn u h
        · exact hrec u (mergePack_mem.mpr (.inr h))
termination_by sizeOf cs
decreasing_by
  all_goals simp_wf
  all_goals omega

end


/-- Claim C6 (counterexample): as stated the claim fails — `merge` cannot
"remove every node whose segment length is below tol" while "leaving the root
set unchanged", because on a tree whose root is itself short the call fails
outright (root length 2, tolerance 3). -/
theorem merge_short_root_no_result :
    merge (.node [pI 0 0, pI 2 0] [.node [pI 5 5, pI 0 0] []]) 3 = none := by
  rw [merge, if_pos]
  rw [lengthR_pair]
  have h1 : (((distSq (pI 0 0) (pI 2 0)).val : ℚ) : ℝ) = 4 := by
    have : distSq (pI 0 0) (pI 2 0) = ⟨4, 1⟩ := by decide
    rw [this]
    norm_num [Q.val]
  rw [h1, show (4 : ℝ) = 2 ^ 2 by norm_num,
    Real.sqrt_sq (by norm_num : (0 : ℝ) ≤ 2)]
  norm_num

/-- Claim C6 (amended): on a consistent tree of genuine (two-or-more point)
segments whose root is not shorter than `tol`, `merge` succeeds; the root
segment (hence the root set) is unchanged, every node of the result has
segment length at least `tol` (all short nodes are removed, lengths taken
after re-homing), and the result again satisfies the parent/child coordinate
invariant (each removed node's children were re-homed onto their grandparent,
their last coordinate replaced by the grandparent's first coordinate). -/
theorem merge_spec (t : Tree) (tol : ℝ)
    (hroot : ¬ lengthR t.seg < tol)
    (hsegs : ∀ s ∈ t.dfs, 2 ≤ s.length)
    (hcons : is_consistent t = true) :
    ∃ t', merge t tol = some t' ∧ t'.seg = t.seg ∧
      (∀ s ∈ t'.dfs, ¬ lengthR s < tol) ∧ is_consistent t' = true := by
  obtain ⟨s, cs⟩ := t
  rw [Tree.seg_node] at hroot
  rw [merge, if_neg hroot]
  refine ⟨_, rfl, rfl, ?_, ?_⟩
  · intro x hx
    rw [Tree.dfs_node] at hx
    rcases List.mem_cons.mp hx with rfl | hx
    · exact hroot
    · obtain ⟨u, hu, hxu⟩ := dfsForest_mem.mp hx
      exact mergeSibs_long tol _ false cs u hu x hxu
  · rw [is_consistent_node]
    have hchild : ∀ c ∈ cs, (∀ x ∈ c.dfs, 2 ≤ x.length) ∧
        consForest (segFirst c.seg) c.children = true ∧
        beqPt (segLast c.seg) (segFirst s) = true := by
      intro c hc
      have hca := consForest_iff.mp (by simpa [is_consistent_node] using hcons) c hc
      obtain ⟨s0, cs0⟩ := c
      rw [Tree.consAux_node, Bool.and_eq_true] at hca
      refine ⟨fun x hx => hsegs x ?_, by simpa using hca.2, by simpa using hca.1⟩
      rw [Tree.dfs_node]
      exact List.mem_cons_of_mem _ (dfsForest_mem.mpr ⟨_, hc, hx⟩)
    exact consForest_iff.mpr
      (mergeSibs_cons tol (segFirst s) false cs (fun c hc => (hchild c hc).1)
        (fun c hc => (hchild c hc).2.1) (fun _ c hc => (hchild c hc).2.2))

/-- Claim C6 (witness): the amended `merge` theorem applied to a concrete
consistent tree with a long root (length 3) and a short child (length √2,
tolerance 2), whose hypotheses all hold. -/
theorem merge_spec_witness :
    ∃ t', merge (.node [pI 0 0, pI 3 0] [.node [pI 1 1, pI 0 0] []]) 2 = some t' ∧
      t'.seg = [pI 0 0, pI 3 0] ∧
      (∀ s ∈ t'.dfs, ¬ lengthR s < 2) ∧ is_consistent t' = true := by
  have hroot : ¬ lengthR ([pI 0 0, pI 3 0] : Seg) < 2 := by
    rw [lengthR_pair]
    have h1 : (((distSq (pI 0 0) (pI 3 0)).val : ℚ) : ℝ) = 9 := by
      have : distSq (pI 0 0) (pI 3 0) = ⟨9, 1⟩ := by decide
      rw [this]
      norm_num [Q.val]
    rw [h1, show (9 : ℝ) = 3 ^ 2 by norm_num,
      Real.sqrt_sq (by norm_num : (0 : ℝ) ≤ 3)]
    norm_num
  obtain ⟨t', h1, h2, h3, h4⟩ := merge_spec
    (.node [pI 0 0, pI 3 0] [.node [pI 1 1, pI 0 0] []]) 2 hroot
    (by decide) (by decide)
  exact ⟨t', h1, h2, h3, h4⟩

end Hydro
